import Mathlib

/-!
Verification of the print-planning and rendering engine of the SPIR-T
pretty-printer (`src/print/mod.rs`).

The development shallowly embeds the planner (`Plan::use_interned`,
`Plan::use_node`, `Plan::for_root`, `Plan::for_versions`, the `Visitor`
impl for `Plan`), the printer's style-assignment passes (`Printer::new`),
use printing (`Use::print_as_ref_or_def`), whole-plan printing
(`impl Print for Plan`) and the plain-text assembler
(`impl fmt::Display for Versions`).

External collaborators (the `crate::visit` traversal contract, the
interning `Context` storage, and the `pretty` layout engine) are modelled
at their interfaces, per the spec's component boundaries:
* a definition's `dyn_visit_with` behaviour is its sequence of visitor
  callbacks (`VisitStep` lists);
* interned handles and entity handles are arena indices (`Nat`), and
  pointer identity of `&dyn DynNodeDef` is modelled by a stable `defId`
  (the spec's own porting note prescribes exactly this replacement);
* pretty fragments are kept abstract where their internal text does not
  matter (rendered definitions become opaque `String`s).
-/

namespace SpirtPrint

/-! ## Handles and data model

`GlobalVar`, `Func`, `AttrSet`, `Type`, `Const`, `ControlRegion`,
`ControlNode`, `DataInst` handles are arena indices, modelled as `Nat`. -/

/-- Mirror of `enum Node` (print/mod.rs:92-107): identity of a top-level
printable item. -/
inductive Node where
  | root
  | allCxInterned
  | moduleDialect
  | moduleDebugInfo
  | globalVar (gv : Nat)
  | func (f : Nat)
deriving DecidableEq, Repr

/-- Mirror of `enum CxInterned` (print/mod.rs:133-137). -/
inductive CxInterned where
  | attrSet (a : Nat)
  | ty (t : Nat)
  | const (c : Nat)
deriving DecidableEq, Repr

/-- Mirror of `enum Value` (crate root; variants used by `Use::from`). -/
inductive Value where
  | const (c : Nat)
  | controlRegionInput (region : Nat) (inputIdx : Nat)
  | controlNodeOutput (controlNode : Nat) (outputIdx : Nat)
  | dataInstOutput (d : Nat)
deriving DecidableEq, Repr

/-- Mirror of `enum Use` (print/mod.rs:167-185). -/
inductive Use where
  | node (n : Node)
  | cxInterned (i : CxInterned)
  | controlRegionLabel (r : Nat)
  | controlRegionInput (region : Nat) (inputIdx : Nat)
  | controlNodeOutput (controlNode : Nat) (outputIdx : Nat)
  | dataInstOutput (d : Nat)
deriving DecidableEq, Repr

/-- Mirror of `impl From<Value> for Use` (print/mod.rs:187-204). -/
def useOfValue : Value → Use
  | .const c => .cxInterned (.const c)
  | .controlRegionInput r i => .controlRegionInput r i
  | .controlNodeOutput c o => .controlNodeOutput c o
  | .dataInstOutput d => .dataInstOutput d

/-- Mirror of `Node::category` (print/mod.rs:110-124) merged through
`unwrap_or_else(|s| s)` (i.e. either the `Ok` or the `Err` payload). -/
def Node.categoryAny : Node → String
  | .root => "Node::Root"
  | .allCxInterned => "Node::AllCxInterned"
  | .moduleDialect => "module.dialect"
  | .moduleDebugInfo => "module.debug_info"
  | .globalVar _ => "global_var"
  | .func _ => "func"

/-- The `Ok` branch of `Node::category` (`Err` becomes `none`); `unwrap()`
on an `Err` is a panic, modelled by `Option`. -/
def Node.categoryOk : Node → Option String
  | .root => none
  | .allCxInterned => none
  | .moduleDialect => some "module.dialect"
  | .moduleDebugInfo => some "module.debug_info"
  | .globalVar _ => some "global_var"
  | .func _ => some "func"

/-- Mirror of `CxInterned::category` (print/mod.rs:140-146). -/
def CxInterned.category : CxInterned → String
  | .attrSet _ => "attrs"
  | .ty _ => "type"
  | .const _ => "const"

/-- Mirror of `Use::category` (print/mod.rs:207-216); the `Node` arm
calls `.unwrap()`, which panics for `Root`/`AllCxInterned` (`none`). -/
def Use.category : Use → Option String
  | .node n => n.categoryOk
  | .cxInterned i => some i.category
  | .controlRegionLabel _ => some "label"
  | .controlRegionInput _ _ => some "v"
  | .controlNodeOutput _ _ => some "v"
  | .dataInstOutput _ => some "v"

/-! ## Interned definitions (for the compact-print predicates)

Modelled from the spec: the interned `Context` storage is an external
collaborator ("read-only store mapping interned handles to definitions");
only the fields inspected by `Printer::new` are modelled. `Attr` is an
external enum of which `Printer::new` only distinguishes
`Attr::SpvDebugLine { .. }`. `AttrSet::default()` (the empty attribute
set handle) is modelled as handle `0`. -/

/-- The `Attr` enum, at the granularity `Printer::new` inspects it. -/
inductive Attr where
  | spvDebugLine
  | other (tag : Nat)
deriving DecidableEq, Repr

/-- Mirror of `AttrSetDef` (only field: `attrs`). -/
structure AttrSetDef where
  attrs : List Attr
deriving DecidableEq, Repr

/-- Mirror of `TypeCtor` (`SpvInst` with its opcode, or
`SpvStringLiteralForExtInst`). -/
inductive TypeCtor where
  | spvInst (opcode : Nat)
  | spvStringLiteralForExtInst
deriving DecidableEq, Repr

/-- Mirror of `TypeDef` at the granularity `Printer::new` inspects it
(ctor args are opaque handles). -/
structure TypeDef where
  attrs : Nat
  ctor : TypeCtor
  ctorArgs : List Nat
deriving DecidableEq, Repr

/-- Mirror of `ConstCtor` at the granularity `Printer::new` inspects it:
`SpvInst` with its opcode, anything else (`_ => false` in the match). -/
inductive ConstCtor where
  | spvInst (opcode : Nat)
  | other (tag : Nat)
deriving DecidableEq, Repr

/-- Mirror of `ConstDef` at the granularity `Printer::new` inspects it. -/
structure ConstDef where
  attrs : Nat
  ty : Nat
  ctor : ConstCtor
  ctorArgs : List Nat
deriving DecidableEq, Repr

/-- Modelled from the spec: SPIR-V well-known opcodes used by
`Printer::new`'s compact-print checks (`spv::spec::Spec::get().well_known`
is an external table; the numbers are the SPIR-V opcode values). -/
def wkOpTypeBool : Nat := 20
/-- SPIR-V `OpTypeInt`. -/
def wkOpTypeInt : Nat := 21
/-- SPIR-V `OpTypeFloat`. -/
def wkOpTypeFloat : Nat := 22
/-- SPIR-V `OpTypeVector`. -/
def wkOpTypeVector : Nat := 23
/-- SPIR-V `OpConstantTrue`. -/
def wkOpConstantTrue : Nat := 41
/-- SPIR-V `OpConstantFalse`. -/
def wkOpConstantFalse : Nat := 42
/-- SPIR-V `OpConstant`. -/
def wkOpConstant : Nat := 43

/-! ## Visit behaviour of definitions

Modelled from the spec: the traversal contract (`crate::visit`) is an
external collaborator — "every entity kind answers a fixed set of
'visit my dependency' callbacks". A definition's `dyn_visit_with` is
therefore modelled as the list of `Visitor` callbacks it performs, in
order (`VisitStep`). `Plan`'s own `Visitor` impl (print/mod.rs:360-430)
is translated from the source in `runStep` below. -/

/-- Per-function body traversal order of `define_label_or_value` calls
made by `Printer::new`'s second pass; only intra-function uses occur
there (the pass only ever constructs these four `Use` variants). -/
inductive LocalUse where
  | label (r : Nat)
  | regionInput (region : Nat) (inputIdx : Nat)
  | nodeOutput (controlNode : Nat) (outputIdx : Nat)
  | instOutput (d : Nat)
deriving DecidableEq, Repr

/-- Map a `LocalUse` to the `Use` key `define_label_or_value` receives. -/
def LocalUse.toUse : LocalUse → Use
  | .label r => .controlRegionLabel r
  | .regionInput r i => .controlRegionInput r i
  | .nodeOutput c o => .controlNodeOutput c o
  | .instOutput d => .dataInstOutput d

mutual
/-- One `Visitor` callback performed by a definition's visit. -/
inductive VisitStep where
  | attrSet (a : Nat)
  | ty (t : Nat)
  | const (c : Nat)
  | globalVar (g : Nat)
  | func (f : Nat)
  | value (v : Value)
  | label (r : Nat)
  | dialect (d : NodeDef)
  | debugInfo (d : NodeDef)
  | moduleVisit (m : Module)

/-- A `Module`: its `Context` pointer identity (`ctxId`), its
`global_vars` and `funcs` entity arenas, and the visitor callbacks its
`inner_visit_with` performs. -/
inductive Module where
  | mk (ctxId : Nat) (globalVars : List (Nat × NodeDef))
      (funcs : List (Nat × NodeDef)) (steps : List VisitStep)

/-- An `&dyn DynNodeDef` definition: `defId` models pointer identity
(per the spec's porting note, a stable arena index); `steps` is its
`dyn_visit_with` behaviour; `localDefs` is `some` of the body traversal
order when `downcast_as_func_decl` yields a `FuncDecl` whose `def` is
`DeclDef::Present` (used only by `Printer::new`'s second pass). -/
inductive NodeDef where
  | mk (defId : Nat) (steps : List VisitStep)
      (localDefs : Option (List LocalUse))
end

/-- `defId` projection. -/
def NodeDef.defId : NodeDef → Nat
  | .mk i _ _ => i

/-- `steps` projection. -/
def NodeDef.steps : NodeDef → List VisitStep
  | .mk _ s _ => s

/-- `localDefs` projection. -/
def NodeDef.localDefs : NodeDef → Option (List LocalUse)
  | .mk _ _ l => l

/-- `ctxId` projection. -/
def Module.ctxId : Module → Nat
  | .mk c _ _ _ => c

/-- `globalVars` projection. -/
def Module.globalVars : Module → List (Nat × NodeDef)
  | .mk _ g _ _ => g

/-- `funcs` projection. -/
def Module.funcs : Module → List (Nat × NodeDef)
  | .mk _ _ f _ => f

/-- `steps` projection. -/
def Module.steps : Module → List VisitStep
  | .mk _ _ _ s => s

/-- The interning context: pointer identity, the visit behaviour of each
interned definition (`visit_attr_set_def` / `visit_type_def` /
`visit_const_def`), and the stored definitions `Printer::new` reads
through `cx[...]`. -/
structure Context where
  ctxId : Nat
  attrSetSteps : Nat → List VisitStep
  typeSteps : Nat → List VisitStep
  constSteps : Nat → List VisitStep
  attrSetDefs : Nat → AttrSetDef
  typeDefs : Nat → TypeDef
  constDefs : Nat → ConstDef

/-- The visit behaviour `Plan::use_interned` recurses into
(print/mod.rs:308-318). -/
def internedSteps (cx : Context) : CxInterned → List VisitStep
  | .attrSet a => cx.attrSetSteps a
  | .ty t => cx.typeSteps t
  | .const c => cx.constSteps c

/-! ## Association-list maps

`FxIndexMap` is an insertion-ordered map: iteration follows first-insert
order, `entry(..).or_default()` appends new keys at the end, updates keep
the original position. `FxHashMap` is used only through `get`/`entry`.
Both are modelled as association lists with unique keys. -/

/-- `IndexMap`/`HashMap` lookup (first matching key). -/
def alGet {κ α : Type} [DecidableEq κ] : List (κ × α) → κ → Option α
  | [], _ => none
  | (k2, v) :: rest, k => if k2 = k then some v else alGet rest k

/-- In-place update of the first occurrence of a key (position kept);
no-op when absent (all call sites guard on presence). -/
def alSet {κ α : Type} [DecidableEq κ] : List (κ × α) → κ → α → List (κ × α)
  | [], _, _ => []
  | (k2, v) :: rest, k, v2 =>
    if k2 = k then (k2, v2) :: rest else (k2, v) :: alSet rest k v2

/-- `map.entry(k).or_default() += 1` on an `FxIndexMap<_, usize>`:
update in place when present, else append `(k, 1)` at the end. -/
def alBump {κ : Type} [DecidableEq κ] (m : List (κ × Nat)) (k : κ) : List (κ × Nat) :=
  match alGet m k with
  | some v => alSet m k (v + 1)
  | none => m ++ [(k, 1)]

/-- `map.entry(k).or_default(); *count = new.max(*count)`: max-merge one
key into the accumulator (append at the end when absent). -/
def alMergeMax {κ : Type} [DecidableEq κ] (m : List (κ × Nat)) (k : κ) (n : Nat) :
    List (κ × Nat) :=
  match alGet m k with
  | some v => alSet m k (Nat.max n v)
  | none => m ++ [(k, n)]

/-- `shift_remove`: remove the first occurrence of a key, preserving the
order of the remaining entries. -/
def alRemove {κ α : Type} [DecidableEq κ] : List (κ × α) → κ → List (κ × α)
  | [], _ => []
  | (k2, v) :: rest, k => if k2 = k then rest else (k2, v) :: alRemove rest k

/-- The key sequence of an association list. -/
def alKeys {κ α : Type} (m : List (κ × α)) : List κ := m.map Prod.fst

/-! ## Plan state and the planner -/

/-- One entry of `per_version_name_and_node_defs`
(print/mod.rs:73): a version name and its `Node` definitions. -/
structure PlanVersion where
  name : String
  nodeDefs : List (Node × NodeDef)

/-- The mutable state of a `Plan` (print/mod.rs:53-81); `cx` is passed
separately since it is immutable. -/
structure PlanState where
  currentModule : Option Module
  versions : List PlanVersion
  useCounts : List (Use × Nat)

/-- Abort conditions: `outOfFuel` models non-termination (the Rust code
has no fuel; a diverging traversal would simply not return), the others
model `assert!`/indexing panics, with `nodeMismatch` carrying the
category named by the panic message
"same `{}` node has multiple distinct definitions in `Plan`". -/
inductive PlanAbort where
  | outOfFuel
  | noActiveVersion
  | missingEntity
  | nodeMismatch (category : String)
  | moduleCtxMismatch
deriving DecidableEq, Repr

/-- Apply a function to the last element of a list (`last_mut`). -/
def modifyLast {α : Type} (f : α → α) : List α → List α
  | [] => []
  | [x] => [f x]
  | x :: y :: rest => x :: modifyLast f (y :: rest)

/-- The definition registered for `Node::AllCxInterned`: the unit struct
`AllCxInterned` (print/mod.rs:128, 447-449) — all references to it share
one (promoted) address, and its `Visit` impl does nothing. -/
def allCxInternedDef : NodeDef := .mk 0 [] none

mutual

/-- Mirror of `Plan::use_interned` (print/mod.rs:301-324). -/
def useInterned : Nat → Context → CxInterned → PlanState → Except PlanAbort PlanState
  | 0, _, _, _ => .error .outOfFuel
  | fuel + 1, cx, i, s =>
    match alGet s.useCounts (Use.cxInterned i) with
    | some c => .ok { s with useCounts := alSet s.useCounts (Use.cxInterned i) (c + 1) }
    | none =>
      match runSteps fuel cx (internedSteps cx i) s with
      | .error e => .error e
      | .ok s1 =>
        match useNode fuel cx Node.allCxInterned allCxInternedDef s1 with
        | .error e => .error e
        | .ok s2 => .ok { s2 with useCounts := alBump s2.useCounts (Use.cxInterned i) }

/-- Mirror of `Plan::use_node` (print/mod.rs:330-357). -/
def useNode : Nat → Context → Node → NodeDef → PlanState → Except PlanAbort PlanState
  | 0, _, _, _, _ => .error .outOfFuel
  | fuel + 1, cx, n, d, s =>
    match alGet s.useCounts (Use.node n) with
    | some c => .ok { s with useCounts := alSet s.useCounts (Use.node n) (c + 1) }
    | none =>
      match s.versions.getLast? with
      | none => .error .noActiveVersion
      | some v =>
        match alGet v.nodeDefs n with
        | some d0 =>
          if d0.defId = d.defId then .ok s
          else .error (.nodeMismatch n.categoryAny)
        | none =>
          let s1 : PlanState :=
            { s with versions :=
                (modifyLast (fun v2 => { v2 with nodeDefs := v2.nodeDefs ++ [(n, d)] })
                  s.versions) }
          match runSteps fuel cx d.steps s1 with
          | .error e => .error e
          | .ok s2 => .ok { s2 with useCounts := alBump s2.useCounts (Use.node n) }

/-- Run a definition's visitor callbacks in order. -/
def runSteps : Nat → Context → List VisitStep → PlanState → Except PlanAbort PlanState
  | 0, _, _, _ => .error .outOfFuel
  | _ + 1, _, [], s => .ok s
  | fuel + 1, cx, st :: rest, s =>
    match runStep fuel cx st s with
    | .error e => .error e
    | .ok s1 => runSteps fuel cx rest s1

/-- Mirror of `impl Visitor for Plan` (print/mod.rs:360-430), one
callback at a time. -/
def runStep : Nat → Context → VisitStep → PlanState → Except PlanAbort PlanState
  | 0, _, _, _ => .error .outOfFuel
  | fuel + 1, cx, st, s =>
    match st with
    | .attrSet a => useInterned fuel cx (.attrSet a) s
    | .ty t => useInterned fuel cx (.ty t) s
    | .const c => useInterned fuel cx (.const c) s
    | .globalVar g =>
      match s.currentModule with
      | none => .ok s
      | some m =>
        match alGet m.globalVars g with
        | none => .error .missingEntity
        | some d => useNode fuel cx (.globalVar g) d s
    | .func f =>
      match s.currentModule with
      | none => .ok s
      | some m =>
        match alGet m.funcs f with
        | none => .error .missingEntity
        | some d => useNode fuel cx (.func f) d s
    | .value v =>
      let s1 : PlanState :=
        match v with
        | .const _ => s
        | _ => { s with useCounts := alBump s.useCounts (useOfValue v) }
      match v with
      | .const c => useInterned fuel cx (.const c) s1
      | _ => .ok s1
    | .label r => .ok { s with useCounts := alBump s.useCounts (.controlRegionLabel r) }
    | .dialect d => useNode fuel cx .moduleDialect d s
    | .debugInfo d => useNode fuel cx .moduleDebugInfo d s
    | .moduleVisit m =>
      if m.ctxId = cx.ctxId then
        match runSteps fuel cx m.steps { s with currentModule := some m } with
        | .error e => .error e
        | .ok s1 => .ok { s1 with currentModule := s.currentModule }
      else .error .moduleCtxMismatch

end

/-- Mirror of `Plan::for_root` (print/mod.rs:223-235), with a fuel bound
standing in for actual recursion. -/
def planForRoot (fuel : Nat) (cx : Context) (root : NodeDef) : Except PlanAbort PlanState :=
  useNode fuel cx .root root
    { currentModule := none
      versions := [{ name := "", nodeDefs := [] }]
      useCounts := [] }

/-- One version planned on its own (the body of one `for_versions`
iteration, starting from empty use counts and a fresh version entry). -/
def planVersionAlone (fuel : Nat) (cx : Context) (nm : String) (root : NodeDef) :
    Except PlanAbort PlanState :=
  useNode fuel cx .root root
    { currentModule := none
      versions := [{ name := nm, nodeDefs := [] }]
      useCounts := [] }

/-- The merge loop of `Plan::for_versions` (print/mod.rs:276-282):
drain the fresh version's counts into the accumulated table, each key
max-merged (`*count = new_count.max(*count)`). -/
def mergeCounts (combined fresh : List (Use × Nat)) : List (Use × Nat) :=
  fresh.foldl (fun acc kv => alMergeMax acc kv.1 kv.2) combined

/-- The `Node::Root` rotation at the end of `Plan::for_versions`
(print/mod.rs:288-292): `shift_remove` then re-`insert` (append). -/
def rotateRootToEnd (m : List (Use × Nat)) : List (Use × Nat) :=
  match alGet m (Use.node .root) with
  | none => m
  | some v => alRemove m (Use.node .root) ++ [(Use.node .root, v)]

/-- The per-version loop of `Plan::for_versions` (print/mod.rs:268-283). -/
def forVersionsLoop (fuel : Nat) (cx : Context) :
    List (String × NodeDef) → PlanState → Except PlanAbort PlanState
  | [], s => .ok s
  | (nm, root) :: rest, s =>
    let combined := s.useCounts
    let s1 : PlanState :=
      { s with useCounts := [],
               versions := s.versions ++ [{ name := nm, nodeDefs := [] }] }
    match useNode fuel cx .root root s1 with
    | .error e => .error e
    | .ok s2 =>
      let s3 : PlanState :=
        if combined.isEmpty then s2
        else { s2 with useCounts := mergeCounts combined s2.useCounts }
      forVersionsLoop fuel cx rest s3

/-- Mirror of `Plan::for_versions` (print/mod.rs:253-295). -/
def planForVersions (fuel : Nat) (cx : Context) (vs : List (String × NodeDef)) :
    Except PlanAbort PlanState :=
  match forVersionsLoop fuel cx vs
      { currentModule := none, versions := [], useCounts := [] } with
  | .error e => .error e
  | .ok s => .ok { s with useCounts := rotateRootToEnd s.useCounts }

/-! ## Printer: style assignment (`Printer::new`, print/mod.rs:681-933) -/

/-- Mirror of `enum UseStyle` (print/mod.rs:667-679). -/
inductive UseStyle where
  | anon (parentFunc : Option Nat) (idx : Nat)
  | inline
deriving DecidableEq, Repr

/-- Mirror of the local `struct AnonCounters` (print/mod.rs:687-694). -/
structure AnonCounters where
  attrSets : Nat
  types : Nat
  consts : Nat
  globalVars : Nat
  funcs : Nat
deriving DecidableEq, Repr

/-- All counters start at zero (`AnonCounters::default()`). -/
def AnonCounters.init : AnonCounters := ⟨0, 0, 0, 0, 0⟩

/-- The attribute-set compact predicate (print/mod.rs:728-738):
`attrs.len() <= 1` or any attribute printed as a trailing comment
(`Attr::SpvDebugLine`). -/
def attrSetCompact (cx : Context) (a : Nat) : Bool :=
  let d := cx.attrSetDefs a
  d.attrs.length ≤ 1 ||
    d.attrs.any (fun attr => match attr with | .spvDebugLine => true | .other _ => false)

/-- `has_compact_print` for types (print/mod.rs:744-754). -/
def typeHasCompactPrint (d : TypeDef) : Bool :=
  match d.ctor with
  | .spvInst op =>
    op = wkOpTypeBool || op = wkOpTypeInt || op = wkOpTypeFloat || op = wkOpTypeVector
  | .spvStringLiteralForExtInst => true

/-- The type compact predicate (print/mod.rs:739-758): default attrs and
(recognized shape or no ctor args). -/
def typeCompact (cx : Context) (t : Nat) : Bool :=
  let d := cx.typeDefs t
  d.attrs = 0 && (typeHasCompactPrint d || d.ctorArgs.isEmpty)

/-- `has_compact_print` for constants (print/mod.rs:764-770). -/
def constHasCompactPrint (d : ConstDef) : Bool :=
  match d.ctor with
  | .spvInst op => op = wkOpConstantFalse || op = wkOpConstantTrue || op = wkOpConstant
  | .other _ => false

/-- The constant compact predicate (print/mod.rs:759-774). -/
def constCompact (cx : Context) (c : Nat) : Bool :=
  let d := cx.constDefs c
  d.attrs = 0 && (constHasCompactPrint d || d.ctorArgs.isEmpty)

/-- The entity-specific compact predicate, per kind. -/
def internedCompact (cx : Context) : CxInterned → Bool
  | .attrSet a => attrSetCompact cx a
  | .ty t => typeCompact cx t
  | .const c => constCompact cx c

/-- The full `inline` condition for an interned entity
(print/mod.rs:724-776): use count exactly 1 or compact. -/
def internedInline (cx : Context) (i : CxInterned) (count : Nat) : Bool :=
  count = 1 || internedCompact cx i

/-- One entry of `Printer::new`'s first pass (the closure at
print/mod.rs:700-816), threading the `AnonCounters`. -/
def firstPassEntry (cx : Context) (ac : AnonCounters) (u : Use) (count : Nat) :
    UseStyle × AnonCounters :=
  match u with
  | .controlRegionLabel _ => (.inline, ac)
  | .controlRegionInput _ _ => (.inline, ac)
  | .controlNodeOutput _ _ => (.inline, ac)
  | .dataInstOutput _ => (.inline, ac)
  | .node .root => (.anon none 0, ac)
  | .node .allCxInterned => (.anon none 0, ac)
  | .node .moduleDialect => (.anon none 0, ac)
  | .node .moduleDebugInfo => (.anon none 0, ac)
  | .cxInterned i =>
    if internedInline cx i count then (.inline, ac)
    else
      match i with
      | .attrSet _ => (.anon none ac.attrSets, { ac with attrSets := ac.attrSets + 1 })
      | .ty _ => (.anon none ac.types, { ac with types := ac.types + 1 })
      | .const _ => (.anon none ac.consts, { ac with consts := ac.consts + 1 })
  | .node (.globalVar _) =>
    (.anon none ac.globalVars, { ac with globalVars := ac.globalVars + 1 })
  | .node (.func _) => (.anon none ac.funcs, { ac with funcs := ac.funcs + 1 })

/-- `Printer::new`'s first pass over the merged use table, in order. -/
def firstPass (cx : Context) : List (Use × Nat) → AnonCounters → List (Use × UseStyle)
  | [], _ => []
  | (u, c) :: rest, ac =>
    let sc := firstPassEntry cx ac u c
    (u, sc.1) :: firstPass cx rest sc.2

/-- `all_funcs` (print/mod.rs:819-825): the `Func` keys of the use table,
in order. -/
def allFuncs (useCounts : List (Use × Nat)) : List Nat :=
  useCounts.filterMap (fun kv =>
    match kv.1 with
    | .node (.func f) => some f
    | _ => none)

/-- `define_label_or_value` (print/mod.rs:838-851) iterated over one
body's traversal order: promote still-`Inline` entries present in the
table to function-local `Anon` indices, maintaining the label counter and
the value counter. -/
def promoteLocals (f : Nat) :
    List LocalUse → List (Use × UseStyle) → Nat → Nat → List (Use × UseStyle) × Nat × Nat
  | [], styles, lc, vc => (styles, lc, vc)
  | lu :: rest, styles, lc, vc =>
    match alGet styles lu.toUse with
    | some .inline =>
      match lu with
      | .label _ =>
        promoteLocals f rest (alSet styles lu.toUse (.anon (some f) lc)) (lc + 1) vc
      | _ => promoteLocals f rest (alSet styles lu.toUse (.anon (some f) vc)) lc (vc + 1)
    | _ => promoteLocals f rest styles lc vc

/-- One function's second pass (print/mod.rs:826-930): fresh counters,
then every version's present body (`func_def_bodies_across_versions`) in
order, with already-assigned indices kept (first definition wins). -/
def promoteFunc (versions : List PlanVersion) (styles : List (Use × UseStyle)) (f : Nat) :
    List (Use × UseStyle) :=
  let bodies := versions.filterMap (fun v => (alGet v.nodeDefs (Node.func f)).bind NodeDef.localDefs)
  (bodies.foldl (fun acc lds => promoteLocals f lds acc.1 acc.2.1 acc.2.2)
    (styles, 0, 0)).1

/-- The second pass over `all_funcs`, with the
`assert!(matches!(.., Some(UseStyle::Anon { .. })))` modelled as `none`
(panic). -/
def secondPass (versions : List PlanVersion) :
    List Nat → List (Use × UseStyle) → Option (List (Use × UseStyle))
  | [], styles => some styles
  | f :: rest, styles =>
    match alGet styles (Use.node (Node.func f)) with
    | some (.anon _ _) => secondPass versions rest (promoteFunc versions styles f)
    | _ => none

/-- Mirror of `Printer::new` (print/mod.rs:682-933): the `use_styles`
table of the resulting `Printer`. -/
def printerNew (cx : Context) (plan : PlanState) : Option (List (Use × UseStyle)) :=
  secondPass plan.versions (allFuncs plan.useCounts)
    (firstPass cx plan.useCounts AnonCounters.init)

/-! ## Use printing (`Use::print_as_ref_or_def`, print/mod.rs:1249-1316) -/

/-- The styles that `print_as_ref_or_def` can apply to the emitted text
(`Default::default()`, `printer.attr_style()`, `printer.error_style()`). -/
inductive StyleKind where
  | plain
  | error
  | attr
deriving DecidableEq, Repr

/-- A pretty-fragment node, at the granularity `print_as_ref_or_def`
produces them. `internedDef i` stands for the recursively rendered
definition `interned.print(printer).insert_name_before_def(..)` (the
entity renderers, kept abstract). -/
inductive PNode where
  | styledText (anchor : Option String) (anchorIsDef : Bool) (style : StyleKind) (text : String)
  | forceLineSeparation
  | internedDef (i : CxInterned)
deriving DecidableEq, Repr

/-- Mirror of `Use::print_as_ref_or_def` (print/mod.rs:1249-1316).
Panics (`assert_eq!`, `unwrap`, indexing a missing key, the
`unreachable!` on an `Inline` parent function) are modelled as `none`. -/
def printAsRefOrDef (styles : List (Use × UseStyle)) (u : Use) (isDef : Bool) :
    Option (List PNode) :=
  match (alGet styles u).getD .inline with
  | .anon parentFunc idx =>
    let nameOpt : Option String :=
      match u with
      | .node .moduleDialect => if idx = 0 then u.category else none
      | .node .moduleDebugInfo => if idx = 0 then u.category else none
      | _ => u.category.map (fun c => c ++ toString idx)
    match nameOpt with
    | none => none
    | some name =>
      let anchorOpt : Option String :=
        match parentFunc with
        | some f =>
          match alGet styles (Use.node (Node.func f)) with
          | some (.anon _ fidx) =>
            some (Node.categoryAny (.func f) ++ toString fidx ++ "." ++ name)
          | _ => none
        | none => some name
      match anchorOpt with
      | none => none
      | some anchor =>
        match u with
        | .cxInterned (.attrSet _) =>
          some [.styledText (some anchor) isDef .attr ("#" ++ name), .forceLineSeparation]
        | _ => some [.styledText (some anchor) isDef .plain name]
  | .inline =>
    match u with
    | .cxInterned i => some [.internedDef i]
    | .node n =>
      some [.styledText none false .error ("/* undefined " ++ n.categoryAny ++ " */_")]
    | _ => some [.styledText none false .plain "_"]

/-! ## Whole-plan printing (`impl Print for Plan`, print/mod.rs:1365-1446)
and the plain-text `Versions` assembler (print/mod.rs:470-525)

The per-node rendered fragments are abstracted to `String`s via a
`render` parameter standing in for
`def.print(printer).insert_name_before_def(name)` (the entity
renderers plus layout, consumed as black boxes). -/

/-- Mirror of `Versions` (print/mod.rs:457-468), with laid-out fragments
as opaque strings. -/
inductive VersionsModel where
  | single (frag : String)
  | multiple (versionNames : List String) (perNode : List (List (String × Nat)))
deriving DecidableEq, Repr

/-- `Itertools::dedup_with_count`: run-length-encode consecutive equal
elements. -/
def rle {α : Type} [DecidableEq α] : List α → List (α × Nat)
  | [] => []
  | x :: xs =>
    match rle xs with
    | [] => [(x, 1)]
    | (y, c) :: rest => if x = y then (y, c + 1) :: rest else (x, 1) :: (y, c) :: rest

/-- Per-version fragments of one node (print/mod.rs:1400-1407):
`node_defs.get(&node).map(print..).unwrap_or_default()` (absent
definitions render as the empty fragment). -/
def nodeVersionFrags (plan : PlanState) (render : Node → NodeDef → String) (node : Node) :
    List String :=
  plan.versions.map (fun v =>
    match alGet v.nodeDefs node with
    | some d => render node d
    | none => "")

/-- The group list of one node (print/mod.rs:1376-1418): empty when there
are no versions; the `AllCxInterned` bucket printed once with repeat
count `num_versions`; otherwise the run-length-encoded per-version
renderings. -/
def nodeGroups (plan : PlanState) (render : Node → NodeDef → String) (renderAll : String)
    (node : Node) : List (String × Nat) :=
  if plan.versions.length = 0 then []
  else if node = Node.allCxInterned then [(renderAll, plan.versions.length)]
  else rle (nodeVersionFrags plan render node)

/-- The `Node` keys of the style table, in order
(print/mod.rs:1369-1375). -/
def filteredNodes (styles : List (Use × UseStyle)) : List Node :=
  styles.filterMap (fun kv =>
    match kv.1 with
    | .node n => some n
    | _ => none)

/-- Mirror of `impl Print for Plan` (print/mod.rs:1367-1445): the
single-version unnamed path flattens last-group fragments, drops empty
ones and separates with blank-line gaps; otherwise the multi-version
structure is returned. -/
def planPrint (plan : PlanState) (styles : List (Use × UseStyle))
    (render : Node → NodeDef → String) (renderAll : String) : VersionsModel :=
  let nodes := filteredNodes styles
  let perNode := nodes.map (nodeGroups plan render renderAll)
  if plan.versions.length = 1 &&
      (match plan.versions.head? with
       | some v => v.name = ""
       | none => false) then
    .single (String.intercalate "\n\n"
      ((perNode.map (fun gs => (gs.getLast?.map Prod.fst).getD "")).filter (fun s => ¬ s = "")))
  else
    .multiple (plan.versions.map PlanVersion.name) perNode

/-- One write performed by `impl fmt::Display for Versions`
(print/mod.rs:470-525): a `//#IF `/`//#ELSEIF ` banner line with the
covered version names, a `//#ENDIF` line, a fragment, or the blank
separator between nodes. -/
inductive OutPiece where
  | banner (isIf : Bool) (names : List String)
  | endifBanner
  | frag (s : String)
  | blankSep
deriving DecidableEq, Repr

/-- Is this piece one of the conditional banner markers? -/
def OutPiece.isBanner : OutPiece → Bool
  | .banner _ _ => true
  | .endifBanner => true
  | _ => false

/-- The inner group loop of the `Display` impl (print/mod.rs:488-515),
tracking `next_version_idx` and `any_headings`. -/
def displayNodeGroups (names : List String) :
    List (String × Nat) → Nat → Bool → List OutPiece × Bool
  | [], _, anyH => ([], anyH)
  | (fr, rc) :: rest, nextIdx, anyH =>
    let this : List OutPiece × Bool :=
      if nextIdx = 0 ∧ rc = names.length then ([.frag fr], anyH)
      else ([.banner (nextIdx = 0) ((names.drop nextIdx).take rc), .frag fr], true)
    let more := displayNodeGroups names rest (nextIdx + rc) this.2
    (this.1 ++ more.1, more.2)

/-- The outer node loop of the `Display` impl (print/mod.rs:478-519):
blank separator between nodes, then the node's groups, then `//#ENDIF`
when any heading was emitted. -/
def displayNodes (names : List String) : List (List (String × Nat)) → Bool → List OutPiece
  | [], _ => []
  | gs :: rest, first =>
    let node := displayNodeGroups names gs 0 false
    (if first then [] else [.blankSep]) ++ node.1 ++
      (if node.2 then [.endifBanner] else []) ++ displayNodes names rest false

/-- Mirror of `impl fmt::Display for Versions` (print/mod.rs:470-525) as
the ordered sequence of writes. -/
def displayVersions : VersionsModel → List OutPiece
  | .single fr => [.frag fr]
  | .multiple names perNode => displayNodes names perNode true

/-! ## Statement helpers: key positions, direct uses, module-free visits -/

/-- Position of the first occurrence of an element in a list. -/
def listPos {α : Type} [DecidableEq α] : List α → α → Option Nat
  | [], _ => none
  | x :: rest, u => if x = u then some 0 else (listPos rest u).map (· + 1)

/-- `u` occurs strictly before `k` in the list. -/
def bBefore {α : Type} [DecidableEq α] (l : List α) (u k : α) : Bool :=
  match listPos l u, listPos l k with
  | some i, some j => decide (i < j)
  | _, _ => false

/-- `u`'s entry occurs strictly before `k`'s entry among the ordered keys
of the use table. -/
def alBefore (m : List (Use × Nat)) (u k : Use) : Bool :=
  bBefore (alKeys m) u k

/-- The node-definition table of the active (last) version. -/
def lastDefs (s : PlanState) : List (Node × NodeDef) :=
  match s.versions.getLast? with
  | some v => v.nodeDefs
  | none => []

mutual
/-- The `Use` keys one visitor callback touches directly, given the
current module: exactly the keys `runStep` looks up or bumps (a module
visit exposes the uses made while it is current). -/
def stepUses (cx : Context) (cm : Option Module) : VisitStep → List Use
  | .attrSet a => [.cxInterned (.attrSet a)]
  | .ty t => [.cxInterned (.ty t)]
  | .const c => [.cxInterned (.const c)]
  | .globalVar g =>
    match cm with
    | none => []
    | some m =>
      match alGet m.globalVars g with
      | none => []
      | some _ => [.node (.globalVar g)]
  | .func f =>
    match cm with
    | none => []
    | some m =>
      match alGet m.funcs f with
      | none => []
      | some _ => [.node (.func f)]
  | .value v => [useOfValue v]
  | .label r => [.controlRegionLabel r]
  | .dialect _ => [.node .moduleDialect]
  | .debugInfo _ => [.node .moduleDebugInfo]
  | .moduleVisit (.mk c gvs fns msteps) =>
    if c = cx.ctxId then stepsUses cx (some (.mk c gvs fns msteps)) msteps else []

/-- The `Use` keys a whole visit behaviour touches directly, in order. -/
def stepsUses (cx : Context) (cm : Option Module) : List VisitStep → List Use
  | [] => []
  | st :: rest => stepUses cx cm st ++ stepsUses cx cm rest
end

mutual
/-- A callback that never switches modules (no `visit_module` below the
root): the shape every definition inside a single `Module` has. -/
def stepClean : VisitStep → Bool
  | .moduleVisit _ => false
  | .dialect d => defClean d
  | .debugInfo d => defClean d
  | _ => true

/-- All of a definition's callbacks are module-free. -/
def defClean : NodeDef → Bool
  | .mk _ steps _ => stepsClean steps

/-- All callbacks in a list are module-free. -/
def stepsClean : List VisitStep → Bool
  | [] => true
  | st :: rest => stepClean st && stepsClean rest
end

/-- Every interned definition the context stores visits module-free. -/
def ctxClean (cx : Context) : Prop :=
  ∀ h : Nat,
    stepsClean (cx.attrSetSteps h) = true ∧ stepsClean (cx.typeSteps h) = true ∧
      stepsClean (cx.constSteps h) = true

/-- A single self-contained module: its own visit behaviour and all of
its entity definitions are module-free. -/
def moduleClean (m : Module) : Prop :=
  stepsClean m.steps = true ∧ (∀ p ∈ m.globalVars, defClean p.2 = true) ∧
    ∀ p ∈ m.funcs, defClean p.2 = true

/-! ## Concrete example inputs (used by witnesses / counterexamples) -/

/-- A minimal context: no interned definition visits anything. -/
def exCx : Context where
  ctxId := 0
  attrSetSteps := fun _ => []
  typeSteps := fun _ => []
  constSteps := fun _ => []
  attrSetDefs := fun _ => ⟨[]⟩
  typeDefs := fun _ => ⟨0, .spvInst wkOpTypeInt, []⟩
  constDefs := fun _ => ⟨0, 0, .spvInst wkOpConstant, []⟩

/-- A self-recursive function: its body visits itself. -/
def exFuncDef : NodeDef := .mk 10 [.func 0] (some [])

/-- A module whose only content is the self-recursive function. -/
def exModule : Module := .mk 0 [] [(0, exFuncDef)] [.func 0]

/-- `Plan::for_module`-style root: visiting it visits the module. -/
def exRoot : NodeDef := .mk 1 [.moduleVisit exModule] none

/-- The planner state at the moment the self-recursive call re-visits
`Func 0`: both `Root` and `Func 0` are registered (in progress), no use
count has been added yet. -/
def exInProgress : PlanState where
  currentModule := some exModule
  versions := [{ name := "", nodeDefs := [(.root, exRoot), (.func 0, exFuncDef)] }]
  useCounts := []

/-- An empty initial plan state with one unnamed version. -/
def exInit : PlanState where
  currentModule := none
  versions := [{ name := "", nodeDefs := [] }]
  useCounts := []

/-- A module handle with a different context pointer than `exCx`. -/
def exForeignModule : Module := .mk 7 [] [] []

/-- Full single-root pretty-printing pipeline, producing the ordered
plain-text writes (`Plan::pretty_print` then `fmt::Display`), with the
entity renderers abstracted as `render`/`renderAll`. -/
def prettyPrintPieces (fuel : Nat) (cx : Context) (root : NodeDef)
    (render : Node → NodeDef → String) (renderAll : String) : Option (List OutPiece) :=
  match planForRoot fuel cx root with
  | .error _ => none
  | .ok plan =>
    (printerNew cx plan).map (fun styles =>
      displayVersions (planPrint plan styles render renderAll))

/-- What one version contributes for a key: the use count that version's
standalone planning (one fresh version entry, empty counts) assigns it,
`none` when planning fails or the key does not occur. -/
def versionCount (fuel : Nat) (cx : Context) (nm : String) (root : NodeDef) (u : Use) :
    Option Nat :=
  match planVersionAlone fuel cx nm root with
  | .ok s => alGet s.useCounts u
  | .error _ => none

/-- Key-wise combination performed by the `for_versions` merge: a key
absent from the new version keeps the accumulator, a present key takes
the max with the accumulated count (`or_default` making absence `0`). -/
def mergeOpt : Option Nat → Option Nat → Option Nat
  | acc, none => acc
  | acc, some n => some (Nat.max n (acc.getD 0))

/-- Version-A root: uses constant `5` twice. -/
def exRootA : NodeDef := .mk 2 [.value (.const 5), .value (.const 5)] none

/-- Version-B root: uses constant `5` once and constant `7` once. -/
def exRootB : NodeDef := .mk 3 [.value (.const 5), .value (.const 7)] none

/-- A two-version plan state (contents empty; enough to exercise the
multi-version printing paths). -/
def exPlan2 : PlanState where
  currentModule := none
  versions := [{ name := "A", nodeDefs := [] }, { name := "B", nodeDefs := [] }]
  useCounts := []

/-- A style table whose only key is the interned bucket node. -/
def exStylesAll : List (Use × UseStyle) := [(Use.node .allCxInterned, .anon none 0)]

/-- The completed plan of the concrete self-recursive module (planning
succeeds, so the fallback arm is never taken). -/
def exRecState : PlanState :=
  match planForRoot 100 exCx exRoot with
  | .ok s => s
  | .error _ => { currentModule := none, versions := [], useCounts := [] }

/-- C1's ordering property exactly as claimed: in the completed plan,
every entity a registered definition uses appears strictly before that
definition's own entry in the ordered use table. -/
def planOrderClaim (cx : Context) (m : Module) (s : PlanState) : Prop :=
  ∀ v ∈ s.versions, ∀ p ∈ v.nodeDefs, ∀ u ∈ stepsUses cx (some m) p.2.steps,
    alBefore s.useCounts u (Use.node p.1) = true

/-- The amended per-dependency ordering fact: interned/label/value
dependencies appear strictly before their user's entry; `Node`
dependencies are listed in the table but (for cyclic references) possibly
after their user. -/
def depOkFinal (s : PlanState) (u k : Use) : Prop :=
  match u with
  | .node _ => u ∈ alKeys s.useCounts
  | _ => alBefore s.useCounts u k = true

/-- Mid-planning per-dependency ordering fact: a `Node` dependency is
registered (possibly still in progress); any other dependency already has
its (earlier) entry, positioned before `k`'s. -/
def DepOk (s : PlanState) (u k : Use) : Prop :=
  match u with
  | .node n2 => n2 ∈ alKeys (lastDefs s)
  | _ => alBefore s.useCounts u k = true

/-- A dependency just processed: a `Node` dependency is registered; any
other dependency has an entry in the use table. -/
def DepReady (s : PlanState) (u : Use) : Prop :=
  match u with
  | .node n2 => n2 ∈ alKeys (lastDefs s)
  | _ => u ∈ alKeys s.useCounts

/-- Keys only accumulate: the use table's key order is extended at the
end, and so is the active version's registration table. -/
def ExtKeys (s s2 : PlanState) : Prop :=
  (∃ ks, alKeys s2.useCounts = alKeys s.useCounts ++ ks) ∧
    ∃ ds, alKeys (lastDefs s2) = alKeys (lastDefs s) ++ ds

/-- The set of in-progress nodes (registered but not yet counted) is
unchanged across a completed call. -/
def StackEq (s s2 : PlanState) : Prop :=
  ∀ n2 : Node, (n2 ∈ alKeys (lastDefs s2) ∧ Use.node n2 ∉ alKeys s2.useCounts) ↔
    (n2 ∈ alKeys (lastDefs s) ∧ Use.node n2 ∉ alKeys s.useCounts)

/-- The planning invariant carried through the module-internal phase:
unique keys in both tables; every counted node's and every counted
interned entity's direct dependencies satisfy the ordering fact; every
counted node is registered. -/
def PlanInv (cx : Context) (m : Module) (s : PlanState) : Prop :=
  (alKeys s.useCounts).Nodup ∧
  (alKeys (lastDefs s)).Nodup ∧
  (∀ p ∈ lastDefs s, Use.node p.1 ∈ alKeys s.useCounts →
    ∀ u ∈ stepsUses cx (some m) p.2.steps, DepOk s u (Use.node p.1)) ∧
  (∀ i : CxInterned, Use.cxInterned i ∈ alKeys s.useCounts →
    ∀ u ∈ stepsUses cx (some m) (internedSteps cx i), DepOk s u (Use.cxInterned i)) ∧
  (∀ n2 : Node, Use.node n2 ∈ alKeys s.useCounts → n2 ∈ alKeys (lastDefs s))

/-! # Theorems -/

/-! ## Association-list toolkit -/

theorem alGet_cons {κ α : Type} [DecidableEq κ] (k2 : κ) (v : α) (rest : List (κ × α)) (k : κ) :
    alGet ((k2, v) :: rest) k = if k2 = k then some v else alGet rest k := rfl

theorem alGet_alSet_ne {κ α : Type} [DecidableEq κ] (m : List (κ × α)) (k k2 : κ) (v : α)
    (h : k ≠ k2) : alGet (alSet m k v) k2 = alGet m k2 := by
  induction m with
  | nil => rfl
  | cons kv rest ih =>
    obtain ⟨k0, v0⟩ := kv
    by_cases h0 : k0 = k
    · subst h0
      simp [alSet, alGet, h]
    · simp only [alSet, if_neg h0, alGet]
      by_cases h1 : k0 = k2
      · simp [h1]
      · simp [h1, ih]

theorem alGet_alSet_self {κ α : Type} [DecidableEq κ] (m : List (κ × α)) (k : κ) (v : α) :
    alGet (alSet m k v) k = (alGet m k).map (fun _ => v) := by
  induction m with
  | nil => rfl
  | cons kv rest ih =>
    obtain ⟨k0, v0⟩ := kv
    by_cases h0 : k0 = k
    · subst h0
      simp [alSet, alGet]
    · simp [alSet, alGet, h0, ih]

theorem alKeys_alSet {κ α : Type} [DecidableEq κ] (m : List (κ × α)) (k : κ) (v : α) :
    alKeys (alSet m k v) = alKeys m := by
  induction m with
  | nil => rfl
  | cons kv rest ih =>
    obtain ⟨k0, v0⟩ := kv
    by_cases h0 : k0 = k
    · subst h0
      simp [alSet, alKeys]
    · simp [alSet, alKeys, h0] at ih ⊢
      exact ih

theorem alGet_append {κ α : Type} [DecidableEq κ] (m l : List (κ × α)) (k : κ) :
    alGet (m ++ l) k = ((alGet m k).orElse (fun _ => alGet l k)) := by
  induction m with
  | nil => simp [alGet, Option.orElse]
  | cons kv rest ih =>
    obtain ⟨k0, v0⟩ := kv
    by_cases h0 : k0 = k
    · simp [alGet, h0, Option.orElse]
    · simp [alGet, h0, ih]

theorem alGet_alBump_ne {κ : Type} [DecidableEq κ] (m : List (κ × Nat)) (k k2 : κ)
    (h : k ≠ k2) : alGet (alBump m k) k2 = alGet m k2 := by
  unfold alBump
  cases h0 : alGet m k with
  | some v => exact alGet_alSet_ne m k k2 (v + 1) h
  | none =>
    rw [alGet_append]
    simp [alGet, h, Option.orElse]
    cases alGet m k2 <;> simp [Ne.symm h]

theorem alGet_alBump_self {κ : Type} [DecidableEq κ] (m : List (κ × Nat)) (k : κ) :
    alGet (alBump m k) k = some ((alGet m k).getD 0 + 1) := by
  unfold alBump
  cases h0 : alGet m k with
  | some v =>
    rw [alGet_alSet_self, h0]
    rfl
  | none =>
    rw [alGet_append, h0]
    simp [alGet, Option.orElse]

/-! ## C8 -/

/-- C8: in multi-version printing, the synthetic `AllCxInterned` bucket
node is rendered as exactly one group whose repeat count equals the total
number of versions, irrespective of how many versions there are or what
they contain. -/
theorem c8_all_interned_one_group :
    ∀ (plan : PlanState) (styles : List (Use × UseStyle))
      (render : Node → NodeDef → String) (renderAll : String) (j : Nat),
      2 ≤ plan.versions.length →
      (filteredNodes styles)[j]? = some Node.allCxInterned →
      ∃ perNode : List (List (String × Nat)),
        planPrint plan styles render renderAll
          = .multiple (plan.versions.map PlanVersion.name) perNode ∧
        perNode[j]? = some [(renderAll, plan.versions.length)] := by
  intro plan styles render renderAll j hv hj
  refine ⟨(filteredNodes styles).map (nodeGroups plan render renderAll), ?_, ?_⟩
  · have h1 : plan.versions.length ≠ 1 := by omega
    simp [planPrint, h1]
  · rw [List.getElem?_map, hj]
    have h0 : plan.versions.length ≠ 0 := by omega
    simp [nodeGroups, h0]

/-- C8 witness: a concrete two-version plan renders the bucket as the
single group `[("ALL", 2)]`. -/
theorem c8_witness :
    2 ≤ exPlan2.versions.length ∧
    ∃ perNode : List (List (String × Nat)),
      planPrint exPlan2 exStylesAll (fun _ _ => "") "ALL"
        = .multiple (exPlan2.versions.map PlanVersion.name) perNode ∧
      perNode[0]? = some [("ALL", 2)] :=
  ⟨by decide,
   c8_all_interned_one_group exPlan2 exStylesAll (fun _ _ => "") "ALL" 0 (by decide) rfl⟩

/-! ## C7 -/

theorem rle_singleton {α : Type} [DecidableEq α] (x : α) : rle [x] = [(x, 1)] := rfl

theorem nodeGroups_one_version (plan : PlanState) (render : Node → NodeDef → String)
    (renderAll : String) (node : Node) (v : PlanVersion) (hv : plan.versions = [v]) :
    ∃ f, nodeGroups plan render renderAll node = [(f, 1)] := by
  by_cases h : node = Node.allCxInterned
  · exact ⟨renderAll, by simp [nodeGroups, hv, h]⟩
  · refine ⟨match alGet v.nodeDefs node with
      | some d => render node d
      | none => "", ?_⟩
    simp [nodeGroups, hv, h, nodeVersionFrags, rle_singleton]

theorem displayNodeGroups_uniform_one (names : List String) (hn : names.length = 1)
    (f : String) : displayNodeGroups names [(f, 1)] 0 false = ([OutPiece.frag f], false) := by
  simp [displayNodeGroups, hn]

theorem displayNodes_no_banner_of_singletons (names : List String) (hn : names.length = 1) :
    ∀ (perNode : List (List (String × Nat))) (first : Bool),
      (∀ gs ∈ perNode, ∃ f, gs = [(f, 1)]) →
      ∀ p ∈ displayNodes names perNode first, p.isBanner = false := by
  intro perNode
  induction perNode with
  | nil =>
    intro first _ p hp
    simp [displayNodes] at hp
  | cons gs rest ih =>
    intro first hall p hp
    obtain ⟨f, hf⟩ := hall gs (by simp)
    subst hf
    rw [displayNodes, displayNodeGroups_uniform_one names hn f] at hp
    simp only [List.mem_append] at hp
    rcases hp with ((h1 | h2) | h3) | h4
    · rcases first with _ | _ <;> simp_all [OutPiece.isBanner]
    · simp_all [OutPiece.isBanner]
    · simp at h3
    · exact ih false (fun gs2 hgs2 => hall gs2 (by simp [hgs2])) p h4

/-- C7: a plan with exactly one version never produces `//#IF`,
`//#ELSEIF` or `//#ENDIF` banner writes — neither on the flattened
unnamed-single-version path nor on the multi-version path taken by a
single named version (one fully-uniform group per node). -/
theorem c7_single_version_no_banners :
    ∀ plan styles render renderAll p,
      plan.versions.length = 1 →
      p ∈ displayVersions (planPrint plan styles render renderAll) →
      p.isBanner = false := by
  intro plan styles render renderAll p h1 hp
  obtain ⟨v, hv⟩ := List.length_eq_one.mp h1
  by_cases hname : v.name = ""
  · cases hpp : planPrint plan styles render renderAll with
    | single s =>
      rw [hpp] at hp
      simp only [displayVersions, List.mem_singleton] at hp
      subst hp
      rfl
    | multiple names perNode =>
      simp [planPrint, hv, hname] at hpp
  · have hm : planPrint plan styles render renderAll
        = .multiple (plan.versions.map PlanVersion.name)
            ((filteredNodes styles).map (nodeGroups plan render renderAll)) := by
      simp [planPrint, hv, hname]
    rw [hm] at hp
    simp only [displayVersions] at hp
    refine displayNodes_no_banner_of_singletons (plan.versions.map PlanVersion.name)
      (by simp [hv]) _ true ?_ p hp
    intro gs hgs
    obtain ⟨node, _, hnode⟩ := List.mem_map.mp hgs
    rw [← hnode]
    exact nodeGroups_one_version plan render renderAll node v hv

/-- C7 witness: a concrete one-version plan printed end to end yields
only a fragment write, which is not a banner. -/
theorem c7_witness : (OutPiece.frag "ALL").isBanner = false :=
  c7_single_version_no_banners exInit exStylesAll (fun _ _ => "x") "ALL"
    (.frag "ALL") rfl (by decide)

/-! ## Fuel monotonicity (planning is a function of its inputs alone;
extra fuel never changes a successful outcome) -/

theorem planMonoAll : ∀ fuel : Nat,
    (∀ cx i s s2, useInterned fuel cx i s = .ok s2 → useInterned (fuel + 1) cx i s = .ok s2) ∧
    (∀ cx n d s s2, useNode fuel cx n d s = .ok s2 → useNode (fuel + 1) cx n d s = .ok s2) ∧
    (∀ cx steps s s2, runSteps fuel cx steps s = .ok s2 → runSteps (fuel + 1) cx steps s = .ok s2) ∧
    (∀ cx st s s2, runStep fuel cx st s = .ok s2 → runStep (fuel + 1) cx st s = .ok s2) := by
  intro fuel
  induction fuel with
  | zero =>
    refine ⟨?_, ?_, ?_, ?_⟩
    · intro cx i s s2 h
      simp [useInterned] at h
    · intro cx n d s s2 h
      simp [useNode] at h
    · intro cx steps s s2 h
      simp [runSteps] at h
    · intro cx st s s2 h
      simp [runStep] at h
  | succ fuel ih =>
    obtain ⟨ih1, ih2, ih3, ih4⟩ := ih
    refine ⟨?_, ?_, ?_, ?_⟩
    · intro cx i s s2 h
      rw [useInterned] at h ⊢
      cases hg : alGet s.useCounts (Use.cxInterned i) with
      | some c => simp only [hg] at h; exact h
      | none =>
        simp only [hg] at h
        cases h1 : runSteps fuel cx (internedSteps cx i) s with
        | error e => simp [h1] at h
        | ok sa =>
          simp only [h1] at h
          simp only [ih3 _ _ _ _ h1]
          cases h2 : useNode fuel cx .allCxInterned allCxInternedDef sa with
          | error e => simp [h2] at h
          | ok sb =>
            simp only [h2] at h
            simp only [ih2 _ _ _ _ _ h2]
            exact h
    · intro cx n d s s2 h
      rw [useNode] at h ⊢
      cases hg : alGet s.useCounts (Use.node n) with
      | some c => simp only [hg] at h; exact h
      | none =>
        simp only [hg] at h
        cases hl : s.versions.getLast? with
        | none => simp [hl] at h
        | some v =>
          simp only [hl] at h
          cases hd : alGet v.nodeDefs n with
          | some d0 =>
            simp only [hd] at h
            simp only [hd]
            exact h
          | none =>
            simp only [hd] at h
            cases h1 : runSteps fuel cx d.steps
                { s with versions :=
                    (modifyLast (fun v2 => { v2 with nodeDefs := v2.nodeDefs ++ [(n, d)] })
                      s.versions) } with
            | error e => simp [h1] at h
            | ok sa =>
              simp only [h1] at h
              simp only [hd, ih3 _ _ _ _ h1]
              exact h
    · intro cx steps s s2 h
      cases steps with
      | nil =>
        rw [runSteps] at h ⊢
        exact h
      | cons st rest =>
        rw [runSteps] at h ⊢
        cases h1 : runStep fuel cx st s with
        | error e => simp [h1] at h
        | ok sa =>
          simp only [h1] at h
          simp only [ih4 _ _ _ _ h1]
          exact ih3 _ _ _ _ h
    · intro cx st s s2 h
      cases st with
      | attrSet a =>
        rw [runStep] at h ⊢
        exact ih1 _ _ _ _ h
      | ty t =>
        rw [runStep] at h ⊢
        exact ih1 _ _ _ _ h
      | const c =>
        rw [runStep] at h ⊢
        exact ih1 _ _ _ _ h
      | globalVar g =>
        rw [runStep] at h ⊢
        cases hm : s.currentModule with
        | none => simp only [hm] at h; exact h
        | some m =>
          simp only [hm] at h
          cases hd : alGet m.globalVars g with
          | none => simp [hd] at h
          | some d =>
            simp only [hd] at h
            simp only [hd]
            exact ih2 _ _ _ _ _ h
      | func f =>
        rw [runStep] at h ⊢
        cases hm : s.currentModule with
        | none => simp only [hm] at h; exact h
        | some m =>
          simp only [hm] at h
          cases hd : alGet m.funcs f with
          | none => simp [hd] at h
          | some d =>
            simp only [hd] at h
            simp only [hd]
            exact ih2 _ _ _ _ _ h
      | value v =>
        cases v with
        | const c =>
          simp only [runStep] at h ⊢
          exact ih1 _ _ _ _ h
        | controlRegionInput r i =>
          simp only [runStep] at h ⊢
          exact h
        | controlNodeOutput c o =>
          simp only [runStep] at h ⊢
          exact h
        | dataInstOutput d =>
          simp only [runStep] at h ⊢
          exact h
      | label r =>
        rw [runStep] at h ⊢
        exact h
      | dialect d =>
        rw [runStep] at h ⊢
        exact ih2 _ _ _ _ _ h
      | debugInfo d =>
        rw [runStep] at h ⊢
        exact ih2 _ _ _ _ _ h
      | moduleVisit m =>
        rw [runStep] at h ⊢
        by_cases he : m.ctxId = cx.ctxId
        · rw [if_pos he] at h ⊢
          cases h1 : runSteps fuel cx m.steps { s with currentModule := some m } with
          | error e => simp [h1] at h
          | ok sa =>
            simp only [h1] at h
            simp only [ih3 _ _ _ _ h1]
            exact h
        · rw [if_neg he] at h
          simp at h

theorem useNode_mono_le {f g : Nat} (hle : f ≤ g) {cx n d s s2}
    (h : useNode f cx n d s = .ok s2) : useNode g cx n d s = .ok s2 := by
  induction g with
  | zero =>
    have : f = 0 := Nat.le_zero.mp hle
    subst this
    exact h
  | succ g ihg =>
    rcases Nat.lt_or_ge f (g + 1) with hlt | hge
    · exact (planMonoAll g).2.1 _ _ _ _ _ (ihg (Nat.lt_succ_iff.mp hlt))
    · have : f = g + 1 := Nat.le_antisymm hle hge
      subst this
      exact h

theorem planForRoot_fuel_agnostic {f1 f2 : Nat} {cx root s1 s2}
    (h1 : planForRoot f1 cx root = .ok s1) (h2 : planForRoot f2 cx root = .ok s2) :
    s1 = s2 := by
  unfold planForRoot at h1 h2
  rcases Nat.le_total f1 f2 with hle | hle
  · have h3 := useNode_mono_le hle h1
    rw [h3] at h2
    injection h2
  · have h3 := useNode_mono_le hle h2
    rw [h3] at h1
    injection h1
    exact (by assumption : s2 = s1).symm

/-- C9: plan construction and pretty-printing are deterministic functions
of their inputs — two successful runs of the whole pipeline on the same
root (with the same entity renderers) produce identical write sequences,
regardless of the recursion budget each run was given. -/
theorem c9_pretty_print_deterministic :
    ∀ (f1 f2 : Nat) (cx : Context) (root : NodeDef) (render : Node → NodeDef → String)
      (renderAll : String) (out1 out2 : List OutPiece),
      prettyPrintPieces f1 cx root render renderAll = some out1 →
      prettyPrintPieces f2 cx root render renderAll = some out2 →
      out1 = out2 := by
  intro f1 f2 cx root render renderAll out1 out2 h1 h2
  unfold prettyPrintPieces at h1 h2
  cases hp1 : planForRoot f1 cx root with
  | error e => rw [hp1] at h1; cases h1
  | ok p1 =>
    cases hp2 : planForRoot f2 cx root with
    | error e => rw [hp2] at h2; cases h2
    | ok p2 =>
      rw [hp1] at h1
      rw [hp2] at h2
      have hpp : p1 = p2 := planForRoot_fuel_agnostic hp1 hp2
      subst hpp
      rw [h1] at h2
      injection h2

/-- C9 witness: two runs at different fuel on the concrete recursive
module agree. -/
theorem c9_witness :
    ∃ out, prettyPrintPieces 100 exCx exRoot (fun _ _ => "x") "ALL" = some out ∧
      prettyPrintPieces 150 exCx exRoot (fun _ _ => "x") "ALL" = some out := by
  refine ⟨(prettyPrintPieces 100 exCx exRoot (fun _ _ => "x") "ALL").getD [], rfl, ?_⟩
  have h := c9_pretty_print_deterministic 150 100 exCx exRoot (fun _ _ => "x") "ALL"
    ((prettyPrintPieces 150 exCx exRoot (fun _ _ => "x") "ALL").getD [])
    ((prettyPrintPieces 100 exCx exRoot (fun _ _ => "x") "ALL").getD [])
    rfl rfl
  have h150 : prettyPrintPieces 150 exCx exRoot (fun _ _ => "x") "ALL"
      = some ((prettyPrintPieces 150 exCx exRoot (fun _ _ => "x") "ALL").getD []) := rfl
  rw [h150, h]

/-! ## Basic state invariants of planning -/

theorem modifyLast_length {α : Type} (f : α → α) : ∀ l : List α, (modifyLast f l).length = l.length
  | [] => rfl
  | [_] => rfl
  | x :: y :: rest => by
    rw [modifyLast]
    simpa using modifyLast_length f (y :: rest)

theorem alGet_eq_none_iff {κ α : Type} [DecidableEq κ] (m : List (κ × α)) (k : κ) :
    alGet m k = none ↔ k ∉ alKeys m := by
  induction m with
  | nil => simp [alGet, alKeys]
  | cons kv rest ih =>
    obtain ⟨k0, v0⟩ := kv
    by_cases h0 : k0 = k
    · subst h0
      simp [alGet, alKeys]
    · simp [alGet, alKeys, h0, ih, Ne.symm h0]

theorem alKeys_alBump_nodup {κ : Type} [DecidableEq κ] (m : List (κ × Nat)) (k : κ)
    (h : (alKeys m).Nodup) : (alKeys (alBump m k)).Nodup := by
  unfold alBump
  cases h0 : alGet m k with
  | some v => rw [alKeys_alSet]; exact h
  | none =>
    have hk : k ∉ alKeys m := (alGet_eq_none_iff m k).mp h0
    have : alKeys (m ++ [(k, 1)]) = alKeys m ++ [k] := by simp [alKeys]
    rw [this]
    simp [List.nodup_append, h, hk]

/-- The basic invariants every successful planning call preserves:
`current_module` restored, the number of versions unchanged, and
uniqueness of the use-table keys. -/
def PBasic (s s2 : PlanState) : Prop :=
  s2.currentModule = s.currentModule ∧ s2.versions.length = s.versions.length ∧
    ((alKeys s.useCounts).Nodup → (alKeys s2.useCounts).Nodup)

theorem pBasicRefl (s : PlanState) : PBasic s s := ⟨rfl, rfl, fun h => h⟩

theorem pBasicTrans {s1 s2 s3 : PlanState} (h1 : PBasic s1 s2) (h2 : PBasic s2 s3) :
    PBasic s1 s3 :=
  ⟨h2.1.trans h1.1, h2.2.1.trans h1.2.1, fun h => h2.2.2 (h1.2.2 h)⟩

theorem planBasicAll : ∀ fuel : Nat,
    (∀ cx i s s2, useInterned fuel cx i s = .ok s2 → PBasic s s2) ∧
    (∀ cx n d s s2, useNode fuel cx n d s = .ok s2 → PBasic s s2) ∧
    (∀ cx steps s s2, runSteps fuel cx steps s = .ok s2 → PBasic s s2) ∧
    (∀ cx st s s2, runStep fuel cx st s = .ok s2 → PBasic s s2) := by
  intro fuel
  induction fuel with
  | zero =>
    refine ⟨?_, ?_, ?_, ?_⟩
    · intro cx i s s2 h
      simp [useInterned] at h
    · intro cx n d s s2 h
      simp [useNode] at h
    · intro cx steps s s2 h
      simp [runSteps] at h
    · intro cx st s s2 h
      simp [runStep] at h
  | succ fuel ih =>
    obtain ⟨ih1, ih2, ih3, ih4⟩ := ih
    refine ⟨?_, ?_, ?_, ?_⟩
    · intro cx i s s2 h
      rw [useInterned] at h
      cases hg : alGet s.useCounts (Use.cxInterned i) with
      | some c =>
        simp only [hg] at h
        injection h with h
        subst h
        exact ⟨rfl, rfl, fun hn => by rw [alKeys_alSet] at *; exact hn⟩
      | none =>
        simp only [hg] at h
        cases h1 : runSteps fuel cx (internedSteps cx i) s with
        | error e => simp [h1] at h
        | ok sa =>
          simp only [h1] at h
          cases h2 : useNode fuel cx .allCxInterned allCxInternedDef sa with
          | error e => simp [h2] at h
          | ok sb =>
            simp only [h2] at h
            injection h with h
            subst h
            refine pBasicTrans (pBasicTrans (ih3 _ _ _ _ h1) (ih2 _ _ _ _ _ h2)) ?_
            exact ⟨rfl, rfl, fun hn => alKeys_alBump_nodup _ _ hn⟩
    · intro cx n d s s2 h
      rw [useNode] at h
      cases hg : alGet s.useCounts (Use.node n) with
      | some c =>
        simp only [hg] at h
        injection h with h
        subst h
        exact ⟨rfl, rfl, fun hn => by rw [alKeys_alSet] at *; exact hn⟩
      | none =>
        simp only [hg] at h
        cases hl : s.versions.getLast? with
        | none => simp [hl] at h
        | some v =>
          simp only [hl] at h
          cases hd : alGet v.nodeDefs n with
          | some d0 =>
            simp only [hd] at h
            by_cases he : d0.defId = d.defId
            · rw [if_pos he] at h
              injection h with h
              subst h
              exact pBasicRefl s
            · rw [if_neg he] at h
              cases h
          | none =>
            simp only [hd] at h
            cases h1 : runSteps fuel cx d.steps
                { s with versions :=
                    (modifyLast (fun v2 => { v2 with nodeDefs := v2.nodeDefs ++ [(n, d)] })
                      s.versions) } with
            | error e => simp [h1] at h
            | ok sa =>
              simp only [h1] at h
              injection h with h
              subst h
              have hstep : PBasic s
                  { s with versions :=
                      (modifyLast (fun v2 => { v2 with nodeDefs := v2.nodeDefs ++ [(n, d)] })
                        s.versions) } :=
                ⟨rfl, (modifyLast_length _ _).symm ▸ rfl, fun hn => hn⟩
              refine pBasicTrans (pBasicTrans hstep (ih3 _ _ _ _ h1)) ?_
              exact ⟨rfl, rfl, fun hn => alKeys_alBump_nodup _ _ hn⟩
    · intro cx steps s s2 h
      cases steps with
      | nil =>
        rw [runSteps] at h
        injection h with h
        subst h
        exact pBasicRefl s
      | cons st rest =>
        rw [runSteps] at h
        cases h1 : runStep fuel cx st s with
        | error e => simp [h1] at h
        | ok sa =>
          simp only [h1] at h
          exact pBasicTrans (ih4 _ _ _ _ h1) (ih3 _ _ _ _ h)
    · intro cx st s s2 h
      cases st with
      | attrSet a =>
        rw [runStep] at h
        exact ih1 _ _ _ _ h
      | ty t =>
        rw [runStep] at h
        exact ih1 _ _ _ _ h
      | const c =>
        rw [runStep] at h
        exact ih1 _ _ _ _ h
      | globalVar g =>
        rw [runStep] at h
        cases hm : s.currentModule with
        | none =>
          simp only [hm] at h
          injection h with h
          subst h
          exact pBasicRefl s
        | some m =>
          simp only [hm] at h
          cases hd : alGet m.globalVars g with
          | none => simp [hd] at h
          | some d =>
            simp only [hd] at h
            exact ih2 _ _ _ _ _ h
      | func f =>
        rw [runStep] at h
        cases hm : s.currentModule with
        | none =>
          simp only [hm] at h
          injection h with h
          subst h
          exact pBasicRefl s
        | some m =>
          simp only [hm] at h
          cases hd : alGet m.funcs f with
          | none => simp [hd] at h
          | some d =>
            simp only [hd] at h
            exact ih2 _ _ _ _ _ h
      | value v =>
        cases v with
        | const c =>
          simp only [runStep] at h
          exact ih1 _ _ _ _ h
        | controlRegionInput r i =>
          simp only [runStep] at h
          injection h with h
          subst h
          exact ⟨rfl, rfl, fun hn => alKeys_alBump_nodup _ _ hn⟩
        | controlNodeOutput c o =>
          simp only [runStep] at h
          injection h with h
          subst h
          exact ⟨rfl, rfl, fun hn => alKeys_alBump_nodup _ _ hn⟩
        | dataInstOutput d =>
          simp only [runStep] at h
          injection h with h
          subst h
          exact ⟨rfl, rfl, fun hn => alKeys_alBump_nodup _ _ hn⟩
      | label r =>
        rw [runStep] at h
        injection h with h
        subst h
        exact ⟨rfl, rfl, fun hn => alKeys_alBump_nodup _ _ hn⟩
      | dialect d =>
        rw [runStep] at h
        exact ih2 _ _ _ _ _ h
      | debugInfo d =>
        rw [runStep] at h
        exact ih2 _ _ _ _ _ h
      | moduleVisit m =>
        rw [runStep] at h
        by_cases he : m.ctxId = cx.ctxId
        · rw [if_pos he] at h
          cases h1 : runSteps fuel cx m.steps { s with currentModule := some m } with
          | error e => simp [h1] at h
          | ok sa =>
            simp only [h1] at h
            injection h with h
            subst h
            obtain ⟨hc, hl, hn⟩ := ih3 _ _ _ _ h1
            exact ⟨rfl, hl, hn⟩
        · rw [if_neg he] at h
          simp at h

/-! ## Frame: planning reads and writes only the `last` version, so a
prefix of already-planned versions can be attached without changing
anything else (the heart of `for_versions` planning each version
independently) -/

/-- Attach a prefix of earlier versions to a plan state. -/
def liftVersions (pre : List PlanVersion) (s : PlanState) : PlanState :=
  { currentModule := s.currentModule
    versions := pre ++ s.versions
    useCounts := s.useCounts }

theorem liftVersions_currentModule (pre : List PlanVersion) (s : PlanState) :
    (liftVersions pre s).currentModule = s.currentModule := rfl

theorem liftVersions_useCounts (pre : List PlanVersion) (s : PlanState) :
    (liftVersions pre s).useCounts = s.useCounts := rfl

theorem liftVersions_versions (pre : List PlanVersion) (s : PlanState) :
    (liftVersions pre s).versions = pre ++ s.versions := rfl

theorem modifyLast_append {α : Type} (f : α → α) (pre : List α) {l : List α} (h : l ≠ []) :
    modifyLast f (pre ++ l) = pre ++ modifyLast f l := by
  induction pre with
  | nil => rfl
  | cons x xs ih =>
    obtain ⟨y, ys, hys⟩ : ∃ y ys, xs ++ l = y :: ys := by
      cases hxl : xs ++ l with
      | nil => exact absurd (List.append_eq_nil.mp hxl).2 h
      | cons y ys => exact ⟨y, ys, rfl⟩
    rw [List.cons_append, hys, modifyLast, ← hys, ih, List.cons_append]

theorem planFrameAll : ∀ (fuel : Nat) (pre : List PlanVersion),
    (∀ cx i s, s.versions ≠ [] →
      useInterned fuel cx i (liftVersions pre s)
        = (useInterned fuel cx i s).map (liftVersions pre)) ∧
    (∀ cx n d s, s.versions ≠ [] →
      useNode fuel cx n d (liftVersions pre s)
        = (useNode fuel cx n d s).map (liftVersions pre)) ∧
    (∀ cx steps s, s.versions ≠ [] →
      runSteps fuel cx steps (liftVersions pre s)
        = (runSteps fuel cx steps s).map (liftVersions pre)) ∧
    (∀ cx st s, s.versions ≠ [] →
      runStep fuel cx st (liftVersions pre s)
        = (runStep fuel cx st s).map (liftVersions pre)) := by
  intro fuel
  induction fuel with
  | zero =>
    intro pre
    refine ⟨?_, ?_, ?_, ?_⟩
    · intro cx i s hne; rfl
    · intro cx n d s hne; rfl
    · intro cx steps s hne; rfl
    · intro cx st s hne; rfl
  | succ fuel ih =>
    intro pre
    obtain ⟨ih1, ih2, ih3, ih4⟩ := ih pre
    have verne : ∀ (s sa : PlanState), s.versions ≠ [] →
        s.versions.length = sa.versions.length → sa.versions ≠ [] := by
      intro s sa hne hlen hc
      rw [hc] at hlen
      exact hne (List.length_eq_zero.mp hlen)
    refine ⟨?_, ?_, ?_, ?_⟩
    · intro cx i s hne
      rw [useInterned, useInterned]
      rw [liftVersions_useCounts]
      cases hg : alGet s.useCounts (Use.cxInterned i) with
      | some c =>
        simp only [Except.map, liftVersions]
      | none =>
        rw [ih3 _ (internedSteps cx i) s hne]
        cases h1 : runSteps fuel cx (internedSteps cx i) s with
        | error e => rfl
        | ok sa =>
          have hane : sa.versions ≠ [] :=
            verne s sa hne ((planBasicAll fuel).2.2.1 _ _ _ _ h1).2.1.symm
          simp only [Except.map]
          rw [ih2 _ .allCxInterned allCxInternedDef sa hane]
          cases h2 : useNode fuel cx .allCxInterned allCxInternedDef sa with
          | error e => rfl
          | ok sb =>
            simp only [Except.map, liftVersions]
    · intro cx n d s hne
      rw [useNode, useNode]
      rw [liftVersions_useCounts]
      cases hg : alGet s.useCounts (Use.node n) with
      | some c =>
        simp only [Except.map, liftVersions]
      | none =>
        rw [liftVersions_versions, List.getLast?_append_of_ne_nil pre hne]
        cases hl : s.versions.getLast? with
        | none => rfl
        | some v =>
          cases hd : alGet v.nodeDefs n with
          | some d0 =>
            by_cases he : d0.defId = d.defId
            · simp [hd, he, Except.map]
            · simp [hd, he, Except.map]
          | none =>
            have hmodne : ({ s with versions :=
                (modifyLast (fun v2 => { v2 with nodeDefs := v2.nodeDefs ++ [(n, d)] })
                  s.versions) } : PlanState).versions ≠ [] := by
              intro hc
              have := congrArg List.length hc
              rw [modifyLast_length] at this
              exact hne (List.length_eq_zero.mp this)
            have hfr := ih3 cx d.steps
              { s with versions :=
                  (modifyLast (fun v2 => { v2 with nodeDefs := v2.nodeDefs ++ [(n, d)] })
                    s.versions) } hmodne
            simp only [liftVersions] at hfr
            simp only [hd, liftVersions_currentModule, liftVersions_versions,
              modifyLast_append _ pre hne]
            rw [hfr]
            cases h1 : runSteps fuel cx d.steps
                { s with versions :=
                    (modifyLast (fun v2 => { v2 with nodeDefs := v2.nodeDefs ++ [(n, d)] })
                      s.versions) } with
            | error e => rfl
            | ok sa =>
              simp only [Except.map, liftVersions]
    · intro cx steps s hne
      cases steps with
      | nil =>
        rw [runSteps, runSteps]
        rfl
      | cons st rest =>
        rw [runSteps, runSteps]
        rw [ih4 _ st s hne]
        cases h1 : runStep fuel cx st s with
        | error e => rfl
        | ok sa =>
          have hane : sa.versions ≠ [] :=
            verne s sa hne ((planBasicAll fuel).2.2.2 _ _ _ _ h1).2.1.symm
          simp only [Except.map]
          exact ih3 _ rest sa hane
    · intro cx st s hne
      cases st with
      | attrSet a =>
        rw [runStep, runStep]
        exact ih1 _ _ s hne
      | ty t =>
        rw [runStep, runStep]
        exact ih1 _ _ s hne
      | const c =>
        rw [runStep, runStep]
        exact ih1 _ _ s hne
      | globalVar g =>
        rw [runStep, runStep]
        rw [liftVersions_currentModule]
        cases hm : s.currentModule with
        | none => rfl
        | some m =>
          cases hd : alGet m.globalVars g with
          | none => simp [hd, Except.map]
          | some d =>
            simp only [hd]
            exact ih2 _ _ _ s hne
      | func f =>
        rw [runStep, runStep]
        rw [liftVersions_currentModule]
        cases hm : s.currentModule with
        | none => rfl
        | some m =>
          cases hd : alGet m.funcs f with
          | none => simp [hd, Except.map]
          | some d =>
            simp only [hd]
            exact ih2 _ _ _ s hne
      | value v =>
        cases v with
        | const c =>
          rw [runStep, runStep]
          exact ih1 _ _ s hne
        | controlRegionInput r i =>
          simp only [runStep, Except.map, liftVersions]
        | controlNodeOutput c o =>
          simp only [runStep, Except.map, liftVersions]
        | dataInstOutput d =>
          simp only [runStep, Except.map, liftVersions]
      | label r =>
        rw [runStep, runStep]
        simp only [Except.map, liftVersions]
      | dialect d =>
        rw [runStep, runStep]
        exact ih2 _ _ _ s hne
      | debugInfo d =>
        rw [runStep, runStep]
        exact ih2 _ _ _ s hne
      | moduleVisit m =>
        rw [runStep, runStep]
        by_cases he : m.ctxId = cx.ctxId
        · rw [if_pos he, if_pos he]
          have hfr := ih3 cx m.steps { s with currentModule := some m } hne
          simp only [liftVersions] at hfr
          simp only [liftVersions_currentModule, liftVersions_versions, liftVersions_useCounts]
          rw [hfr]
          cases h1 : runSteps fuel cx m.steps { s with currentModule := some m } with
          | error e => rfl
          | ok sa =>
            simp only [Except.map, liftVersions, liftVersions_currentModule]
        · rw [if_neg he, if_neg he]
          rfl

/-! ## C3: the `for_versions` max-merge -/

theorem alGet_alRemove_ne {κ α : Type} [DecidableEq κ] (m : List (κ × α)) (k u : κ)
    (h : k ≠ u) : alGet (alRemove m k) u = alGet m u := by
  induction m with
  | nil => rfl
  | cons kv rest ih =>
    obtain ⟨k0, v0⟩ := kv
    by_cases h0 : k0 = k
    · subst h0
      simp [alRemove, alGet, h]
    · simp [alRemove, alGet, h0, ih]

theorem alGet_alRemove_self {κ α : Type} [DecidableEq κ] (m : List (κ × α)) (k : κ)
    (h : (alKeys m).Nodup) : alGet (alRemove m k) k = none := by
  induction m with
  | nil => rfl
  | cons kv rest ih =>
    obtain ⟨k0, v0⟩ := kv
    simp only [alKeys, List.map_cons, List.nodup_cons] at h
    by_cases h0 : k0 = k
    · subst h0
      simp only [alRemove, if_pos rfl]
      rw [alGet_eq_none_iff]
      exact h.1
    · simp only [alRemove, if_neg h0, alGet, if_neg h0]
      exact ih h.2

theorem rotateRoot_lookup (m : List (Use × Nat)) (h : (alKeys m).Nodup) (u : Use) :
    alGet (rotateRootToEnd m) u = alGet m u := by
  unfold rotateRootToEnd
  cases h0 : alGet m (Use.node .root) with
  | none => rfl
  | some v =>
    rw [alGet_append]
    by_cases hu : Use.node Node.root = u
    · subst hu
      rw [alGet_alRemove_self m _ h, h0]
      simp [alGet, Option.orElse]
    · rw [alGet_alRemove_ne m _ _ hu]
      cases hg : alGet m u with
      | some w => simp [Option.orElse]
      | none => simp [alGet, Option.orElse, hu]

theorem alGet_alMergeMax_self {κ : Type} [DecidableEq κ] (m : List (κ × Nat)) (k : κ) (n : Nat) :
    alGet (alMergeMax m k n) k = some (Nat.max n ((alGet m k).getD 0)) := by
  unfold alMergeMax
  cases h0 : alGet m k with
  | some v =>
    rw [alGet_alSet_self, h0]
    rfl
  | none =>
    rw [alGet_append, h0]
    simp [alGet, Option.orElse]

theorem alGet_alMergeMax_ne {κ : Type} [DecidableEq κ] (m : List (κ × Nat)) (k u : κ) (n : Nat)
    (h : k ≠ u) : alGet (alMergeMax m k n) u = alGet m u := by
  unfold alMergeMax
  cases h0 : alGet m k with
  | some v => exact alGet_alSet_ne m k u _ h
  | none =>
    rw [alGet_append]
    cases hg : alGet m u with
    | some w => simp [Option.orElse]
    | none => simp [alGet, Option.orElse, h]

theorem alKeys_alMergeMax_nodup {κ : Type} [DecidableEq κ] (m : List (κ × Nat)) (k : κ)
    (n : Nat) (h : (alKeys m).Nodup) : (alKeys (alMergeMax m k n)).Nodup := by
  unfold alMergeMax
  cases h0 : alGet m k with
  | some v => rw [alKeys_alSet]; exact h
  | none =>
    have hk : k ∉ alKeys m := (alGet_eq_none_iff m k).mp h0
    have : alKeys (m ++ [(k, n)]) = alKeys m ++ [k] := by simp [alKeys]
    rw [this]
    simp [List.nodup_append, h, hk]

theorem mergeCounts_nodup (fresh : List (Use × Nat)) :
    ∀ comb : List (Use × Nat), (alKeys comb).Nodup → (alKeys (mergeCounts comb fresh)).Nodup := by
  induction fresh with
  | nil => intro comb h; exact h
  | cons kv rest ih =>
    intro comb h
    rw [mergeCounts, List.foldl_cons]
    exact ih _ (alKeys_alMergeMax_nodup comb kv.1 kv.2 h)

theorem mergeCounts_lookup (fresh : List (Use × Nat)) :
    ∀ comb : List (Use × Nat), (alKeys fresh).Nodup → ∀ u,
      alGet (mergeCounts comb fresh) u = mergeOpt (alGet comb u) (alGet fresh u) := by
  induction fresh with
  | nil =>
    intro comb _ u
    rfl
  | cons kv rest ih =>
    intro comb hn u
    obtain ⟨k, n⟩ := kv
    simp only [alKeys, List.map_cons, List.nodup_cons] at hn
    have hstep : mergeCounts comb ((k, n) :: rest) = mergeCounts (alMergeMax comb k n) rest := by
      rw [mergeCounts, List.foldl_cons]
      rfl
    rw [hstep, ih _ (by simpa [alKeys] using hn.2) u]
    by_cases hu : k = u
    · subst hu
      have hrest : alGet rest k = none := (alGet_eq_none_iff rest k).mpr (by
        simpa [alKeys] using hn.1)
      rw [hrest, alGet_alMergeMax_self]
      simp [alGet, mergeOpt]
    · rw [alGet_alMergeMax_ne comb k u n hu]
      simp only [alGet, if_neg hu]

theorem forVersionsLoop_lookup (fuel : Nat) (cx : Context) :
    ∀ (vs : List (String × NodeDef)) (s sF : PlanState),
      s.currentModule = none →
      (alKeys s.useCounts).Nodup →
      forVersionsLoop fuel cx vs s = .ok sF →
      (alKeys sF.useCounts).Nodup ∧
        ∀ u, alGet sF.useCounts u
          = (vs.map (fun p => versionCount fuel cx p.1 p.2 u)).foldl mergeOpt
              (alGet s.useCounts u) := by
  intro vs
  induction vs with
  | nil =>
    intro s sF hcm hnd h
    rw [forVersionsLoop] at h
    injection h with h
    subst h
    exact ⟨hnd, fun u => rfl⟩
  | cons p rest ih =>
    intro s sF hcm hnd h
    obtain ⟨nm, root⟩ := p
    rw [forVersionsLoop] at h
    have hs1 : ({ s with useCounts := [],
                         versions := s.versions ++ [{ name := nm, nodeDefs := [] }] } : PlanState)
        = liftVersions s.versions
            { currentModule := none
              versions := [{ name := nm, nodeDefs := [] }]
              useCounts := [] } := by
      simp [liftVersions, hcm]
    rw [hs1, (planFrameAll fuel s.versions).2.1 cx .root root _ (by simp)] at h
    cases ha : useNode fuel cx .root root
        { currentModule := none
          versions := [{ name := nm, nodeDefs := [] }]
          useCounts := [] } with
    | error e =>
      rw [ha] at h
      simp [Except.map] at h
    | ok sAlone =>
      rw [ha] at h
      simp only [Except.map] at h
      have hbasic := (planBasicAll fuel).2.1 _ _ _ _ _ ha
      have hAloneCm : sAlone.currentModule = none := hbasic.1
      have hAloneNd : (alKeys sAlone.useCounts).Nodup := hbasic.2.2 (by simp [alKeys])
      have hvc : versionCount fuel cx nm root = fun u => alGet sAlone.useCounts u := by
        funext u
        rw [versionCount, planVersionAlone, ha]
      set s3 : PlanState :=
        if s.useCounts.isEmpty then liftVersions s.versions sAlone
        else { liftVersions s.versions sAlone with
                useCounts := mergeCounts s.useCounts (liftVersions s.versions sAlone).useCounts }
        with hs3
      have hloop : forVersionsLoop fuel cx rest s3 = .ok sF := by
        rw [hs3]
        exact h
      have hs3cm : s3.currentModule = none := by
        rw [hs3]
        by_cases hemp : s.useCounts.isEmpty <;> simp [hemp, liftVersions, hAloneCm]
      have hs3nd : (alKeys s3.useCounts).Nodup := by
        rw [hs3]
        by_cases hemp : s.useCounts.isEmpty <;> simp only [hemp, if_pos, if_neg, if_true, if_false]
        · exact hAloneNd
        · exact mergeCounts_nodup _ _ hnd
      obtain ⟨hndF, hlookF⟩ := ih s3 sF hs3cm hs3nd hloop
      refine ⟨hndF, fun u => ?_⟩
      rw [hlookF u]
      simp only [List.map_cons, List.foldl_cons, hvc]
      have hs3get : alGet s3.useCounts u
          = mergeOpt (alGet s.useCounts u) (alGet sAlone.useCounts u) := by
        rw [hs3]
        by_cases hemp : s.useCounts.isEmpty
        · have : s.useCounts = [] := List.isEmpty_iff.mp hemp
          rw [if_pos hemp]
          rw [this]
          cases hg : alGet sAlone.useCounts u with
          | none => simp [liftVersions, alGet, mergeOpt, hg]
          | some n => simp [liftVersions, alGet, mergeOpt, hg]
        · rw [if_neg hemp]
          exact mergeCounts_lookup _ _ hAloneNd u
      rw [hs3get]

/-- Success of the `for_versions` loop follows from the success of each
standalone per-version plan (via the version-prefix frame property). -/
theorem forVersionsLoop_ok (fuel : Nat) (cx : Context) :
    ∀ (vs : List (String × NodeDef)) (s : PlanState),
      s.currentModule = none →
      (∀ p ∈ vs, ∃ sA, planVersionAlone fuel cx p.1 p.2 = .ok sA) →
      ∃ sF, forVersionsLoop fuel cx vs s = .ok sF := by
  intro vs
  induction vs with
  | nil =>
    intro s _ _
    exact ⟨s, rfl⟩
  | cons p rest ih =>
    intro s hcm hall
    obtain ⟨nm, root⟩ := p
    obtain ⟨sAlone, ha⟩ := hall (nm, root) (by simp)
    rw [planVersionAlone] at ha
    have hbasic := (planBasicAll fuel).2.1 _ _ _ _ _ ha
    have hAloneCm : sAlone.currentModule = none := hbasic.1
    have hs1 : ({ s with useCounts := [],
                         versions := s.versions ++ [{ name := nm, nodeDefs := [] }] } : PlanState)
        = liftVersions s.versions
            { currentModule := none
              versions := [{ name := nm, nodeDefs := [] }]
              useCounts := [] } := by
      simp [liftVersions, hcm]
    rw [forVersionsLoop]
    rw [hs1, (planFrameAll fuel s.versions).2.1 cx .root root _ (by simp), ha]
    simp only [Except.map]
    set s3 : PlanState :=
      if s.useCounts.isEmpty then liftVersions s.versions sAlone
      else { liftVersions s.versions sAlone with
              useCounts := mergeCounts s.useCounts (liftVersions s.versions sAlone).useCounts }
      with hs3
    have hs3cm : s3.currentModule = none := by
      rw [hs3]
      by_cases hemp : s.useCounts.isEmpty <;> simp [hemp, liftVersions, hAloneCm]
    exact ih s3 hs3cm (fun p hp => hall p (List.mem_cons_of_mem _ hp))


/-- C3: for every version sequence given to `Plan::for_versions`, the
merged count of each `Use` key equals the key-wise max-fold of the
per-version standalone counts — the maximum over the versions in which
the key occurs, never their sum; keys occurring in only some versions
keep their maximum from those versions (absent versions contribute
nothing). -/
theorem c3_merged_counts_max :
    ∀ (fuel : Nat) (cx : Context) (vs : List (String × NodeDef)) (s : PlanState) (u : Use),
      planForVersions fuel cx vs = .ok s →
      alGet s.useCounts u
        = (vs.map (fun p => versionCount fuel cx p.1 p.2 u)).foldl mergeOpt none := by
  intro fuel cx vs s u h
  unfold planForVersions at h
  cases hl : forVersionsLoop fuel cx vs
      { currentModule := none, versions := [], useCounts := [] } with
  | error e =>
    rw [hl] at h
    cases h
  | ok sL =>
    rw [hl] at h
    injection h with h
    subst h
    obtain ⟨hnd, hlook⟩ := forVersionsLoop_lookup fuel cx vs _ sL rfl (by simp [alKeys]) hl
    rw [rotateRoot_lookup sL.useCounts hnd u, hlook u]
    rfl

set_option maxHeartbeats 1600000 in
/-- C3 witness: constant `5` used twice in version A and once in version
B merges to count `2` (the max, not the sum `3`); constant `7`, present
only in version B, keeps its count `1` from there. -/
theorem c3_witness :
    ∃ s, planForVersions 8 exCx [("A", exRootA), ("B", exRootB)] = .ok s ∧
      alGet s.useCounts (Use.cxInterned (.const 5)) = some 2 ∧
      alGet s.useCounts (Use.cxInterned (.const 7)) = some 1 := by
  obtain ⟨sF, hsF⟩ := forVersionsLoop_ok 8 exCx [("A", exRootA), ("B", exRootB)]
    { currentModule := none, versions := [], useCounts := [] } rfl
    (by
      intro p hp
      rcases List.mem_cons.mp hp with h | h
      · subst h
        exact ⟨_, rfl⟩
      · rcases List.mem_cons.mp h with h2 | h2
        · subst h2
          exact ⟨_, rfl⟩
        · cases h2)
  have hs : planForVersions 8 exCx [("A", exRootA), ("B", exRootB)]
      = .ok { sF with useCounts := rotateRootToEnd sF.useCounts } := by
    unfold planForVersions
    rw [hsF]
  refine ⟨_, hs, ?_, ?_⟩
  · rw [c3_merged_counts_max 8 exCx [("A", exRootA), ("B", exRootB)] _
      (Use.cxInterned (.const 5)) hs]
    rfl
  · rw [c3_merged_counts_max 8 exCx [("A", exRootA), ("B", exRootB)] _
      (Use.cxInterned (.const 7)) hs]
    rfl


/-! ## C4 -/

theorem firstPass_interned_lookup (cx : Context) :
    ∀ (m : List (Use × Nat)) (ac : AnonCounters) (i : CxInterned) (c : Nat),
      alGet m (Use.cxInterned i) = some c →
      ∃ st, alGet (firstPass cx m ac) (Use.cxInterned i) = some st ∧
        (st = UseStyle.inline ↔ internedInline cx i c = true) := by
  intro m
  induction m with
  | nil =>
    intro ac i c h
    simp [alGet] at h
  | cons kv rest ih =>
    intro ac i c h
    obtain ⟨u0, c0⟩ := kv
    by_cases he : u0 = Use.cxInterned i
    · subst he
      rw [alGet_cons, if_pos rfl] at h
      injection h with h
      subst h
      rw [firstPass]
      refine ⟨(firstPassEntry cx ac (Use.cxInterned i) c0).1, ?_, ?_⟩
      · rw [alGet_cons, if_pos rfl]
      · by_cases hin : internedInline cx i c0 = true
        · simp [firstPassEntry, hin]
        · cases i <;> simp [firstPassEntry, hin]
    · rw [alGet_cons, if_neg he] at h
      obtain ⟨st, h1, h2⟩ := ih _ i c h
      refine ⟨st, ?_, h2⟩
      rw [firstPass, alGet_cons, if_neg he]
      exact h1

theorem LocalUse.toUse_ne_interned (lu : LocalUse) (i : CxInterned) :
    lu.toUse ≠ Use.cxInterned i := by
  cases lu <;> simp [LocalUse.toUse]

theorem promoteLocals_preserves_interned (f : Nat) :
    ∀ (lds : List LocalUse) (styles : List (Use × UseStyle)) (lc vc : Nat) (i : CxInterned),
      alGet (promoteLocals f lds styles lc vc).1 (Use.cxInterned i)
        = alGet styles (Use.cxInterned i) := by
  intro lds
  induction lds with
  | nil => intro styles lc vc i; rfl
  | cons lu rest ih =>
    intro styles lc vc i
    cases h0 : alGet styles lu.toUse with
    | none => simp [promoteLocals, h0, ih]
    | some st =>
      cases st with
      | anon pf idx => simp [promoteLocals, h0, ih]
      | inline =>
        cases lu <;>
          simp [promoteLocals, h0, ih,
            alGet_alSet_ne _ _ _ _ (LocalUse.toUse_ne_interned _ i)]

theorem promoteFunc_preserves_interned (versions : List PlanVersion)
    (styles : List (Use × UseStyle)) (f : Nat) (i : CxInterned) :
    alGet (promoteFunc versions styles f) (Use.cxInterned i)
      = alGet styles (Use.cxInterned i) := by
  unfold promoteFunc
  generalize (versions.filterMap fun v => (alGet v.nodeDefs (Node.func f)).bind NodeDef.localDefs)
    = bodies
  suffices h : ∀ (bodies : List (List LocalUse)) (acc : List (Use × UseStyle) × Nat × Nat),
      alGet (bodies.foldl (fun acc lds => promoteLocals f lds acc.1 acc.2.1 acc.2.2) acc).1
          (Use.cxInterned i)
        = alGet acc.1 (Use.cxInterned i) by
    exact h bodies (styles, 0, 0)
  intro bodies
  induction bodies with
  | nil => intro acc; rfl
  | cons lds rest ih =>
    intro acc
    rw [List.foldl_cons, ih]
    exact promoteLocals_preserves_interned f lds acc.1 acc.2.1 acc.2.2 i

theorem secondPass_preserves_interned (versions : List PlanVersion) :
    ∀ (fs : List Nat) (styles styles2 : List (Use × UseStyle)) (i : CxInterned),
      secondPass versions fs styles = some styles2 →
      alGet styles2 (Use.cxInterned i) = alGet styles (Use.cxInterned i) := by
  intro fs
  induction fs with
  | nil =>
    intro styles styles2 i h
    rw [secondPass] at h
    injection h with h
    rw [h]
  | cons f rest ih =>
    intro styles styles2 i h
    rw [secondPass] at h
    cases h0 : alGet styles (Use.node (Node.func f)) with
    | none => rw [h0] at h; cases h
    | some st =>
      rw [h0] at h
      cases st with
      | inline => cases h
      | anon pf idx =>
        rw [ih _ _ i h]
        exact promoteFunc_preserves_interned versions styles f i

/-- C4: in the style table of the `Printer` built from a completed plan,
an interned entity with merged use count `c` is `Inline` exactly when
`c = 1` or its kind-specific compact predicate holds (attribute set: at
most one attribute or a comment-only `SpvDebugLine` attribute; type:
default attrs and recognized scalar/vector shape or no ctor args;
constant: default attrs and recognized `OpConstant*` literal or no ctor
args); moreover an `Inline`-styled interned entity is rendered at each
use site as its recursively printed definition, with no anchored name. -/
theorem c4_interned_inline_iff :
    ∀ (cx : Context) (plan : PlanState) (styles : List (Use × UseStyle)) (i : CxInterned)
      (c : Nat) (isDef : Bool),
      printerNew cx plan = some styles →
      alGet plan.useCounts (Use.cxInterned i) = some c →
      ((alGet styles (Use.cxInterned i) = some UseStyle.inline ↔
        (c = 1 ∨ internedCompact cx i = true)) ∧
       (alGet styles (Use.cxInterned i) = some UseStyle.inline →
        printAsRefOrDef styles (Use.cxInterned i) isDef = some [.internedDef i])) := by
  intro cx plan styles i c isDef hp hc
  obtain ⟨st, h1, h2⟩ := firstPass_interned_lookup cx plan.useCounts AnonCounters.init i c hc
  unfold printerNew at hp
  have h3 := secondPass_preserves_interned plan.versions (allFuncs plan.useCounts)
    (firstPass cx plan.useCounts AnonCounters.init) styles i hp
  constructor
  · rw [h3, h1]
    constructor
    · intro h
      injection h with h
      have h4 := h2.mp h
      simp only [internedInline, Bool.or_eq_true, decide_eq_true_eq] at h4
      exact h4
    · intro h
      have : internedInline cx i c = true := by
        rcases h with h | h
        · simp [internedInline, h]
        · simp [internedInline, h]
      rw [h2.mpr this]
  · intro h
    rw [printAsRefOrDef, h]
    rfl

/-- C4 witness: a twice-used integer `OpConstant` with default attributes
is `Inline` in the printer built from a two-version merged plan, and
prints as its inline definition. -/
theorem c4_witness :
    ∃ styles, printerNew exCx
        { currentModule := none
          versions := [{ name := "", nodeDefs := [] }]
          useCounts := [(Use.cxInterned (.const 5), 2)] } = some styles ∧
      alGet styles (Use.cxInterned (.const 5)) = some UseStyle.inline ∧
      printAsRefOrDef styles (Use.cxInterned (.const 5)) false
        = some [.internedDef (.const 5)] := by
  refine ⟨firstPass exCx [(Use.cxInterned (.const 5), 2)] AnonCounters.init, rfl, ?_, ?_⟩
  · exact (c4_interned_inline_iff exCx
      { currentModule := none
        versions := [{ name := "", nodeDefs := [] }]
        useCounts := [(Use.cxInterned (.const 5), 2)] }
      (firstPass exCx [(Use.cxInterned (.const 5), 2)] AnonCounters.init)
      (.const 5) 2 false rfl rfl).1.mpr (Or.inr (by decide))
  · exact (c4_interned_inline_iff exCx
      { currentModule := none
        versions := [{ name := "", nodeDefs := [] }]
        useCounts := [(Use.cxInterned (.const 5), 2)] }
      (firstPass exCx [(Use.cxInterned (.const 5), 2)] AnonCounters.init)
      (.const 5) 2 false rfl rfl).2 (by decide)

/-- C10: `Plan::visit_module` on a `Module` whose `Context` differs from
the `Plan`'s aborts via the assertion (no contents visited — the error
carries no partial state); with identical contexts the module is visited
and `current_module` is restored to its previous value afterwards. -/
theorem c10_visit_module_ctx_assert :
    (∀ fuel cx m s, Module.ctxId m ≠ Context.ctxId cx →
      runStep (fuel + 1) cx (.moduleVisit m) s = .error .moduleCtxMismatch) ∧
    (∀ fuel cx m s s2, runStep (fuel + 1) cx (.moduleVisit m) s = .ok s2 →
      Module.ctxId m = Context.ctxId cx ∧ s2.currentModule = s.currentModule) := by
  constructor
  · intro fuel cx m s hne
    simp [runStep, hne]
  · intro fuel cx m s s2 h
    by_cases he : Module.ctxId m = Context.ctxId cx
    · refine ⟨he, ?_⟩
      simp only [runStep, he, if_pos] at h
      cases h2 : runSteps fuel cx m.steps { s with currentModule := some m } with
      | error e => rw [h2] at h; cases h
      | ok s1 => rw [h2] at h; cases h; rfl
    · simp [runStep, he] at h

/-- C10 witness: at a concrete foreign module the assertion fires, and at
a matching module the visit succeeds with `current_module` restored. -/
theorem c10_witness :
    runStep 1 exCx (.moduleVisit exForeignModule) exInit = .error .moduleCtxMismatch ∧
    ((runStep 2 exCx (.moduleVisit (.mk 0 [] [] [])) exInit).map PlanState.currentModule
      = .ok none) :=
  ⟨c10_visit_module_ctx_assert.1 0 exCx exForeignModule exInit (by decide), rfl⟩

/-- C5: registering the same `Node` key in the active version with a
definition whose identity differs from the already-registered one aborts
fatally with a message naming that node's category; re-registering the
identical definition returns without aborting (the recursion guard). -/
theorem c5_duplicate_node_def :
    ∀ fuel cx n (d d0 : NodeDef) s v,
      alGet s.useCounts (Use.node n) = none →
      s.versions.getLast? = some v →
      alGet v.nodeDefs n = some d0 →
      (d0.defId ≠ d.defId →
        useNode (fuel + 1) cx n d s = .error (.nodeMismatch n.categoryAny)) ∧
      (d0.defId = d.defId → useNode (fuel + 1) cx n d s = .ok s) := by
  intro fuel cx n d d0 s v h1 h2 h3
  constructor <;> intro h4 <;> simp [useNode, h1, h2, h3, h4]

/-- C5 witness: at the concrete in-progress state, a mismatched `Func`
definition aborts naming `"func"`, while the identical definition is
accepted. -/
theorem c5_witness :
    useNode 50 exCx (.func 0) (.mk 99 [] none) exInProgress
        = .error (.nodeMismatch "func") ∧
    useNode 50 exCx (.func 0) exFuncDef exInProgress = .ok exInProgress := by
  have h := c5_duplicate_node_def 49 exCx (.func 0) (.mk 99 [] none) exFuncDef exInProgress
    { name := "", nodeDefs := [(.root, exRoot), (.func 0, exFuncDef)] } rfl rfl rfl
  have h2 := c5_duplicate_node_def 49 exCx (.func 0) exFuncDef exFuncDef exInProgress
    { name := "", nodeDefs := [(.root, exRoot), (.func 0, exFuncDef)] } rfl rfl rfl
  exact ⟨h.1 (by decide), h2.2 rfl⟩

/-- C2 counterexample: at the concrete self-recursive input, the
in-progress re-visit of `Func 0` returns with the use-count table
unchanged (still empty) — the repeated visit does NOT increment the use
count, contrary to the claim; the full plan still terminates and lists
the function exactly once, with final count `1` (only the outer use). -/
theorem c2_counterexample :
    useNode 50 exCx (.func 0) exFuncDef exInProgress = .ok exInProgress ∧
    alGet exInProgress.useCounts (Use.node (.func 0)) = none ∧
    (planForRoot 100 exCx exRoot).map PlanState.useCounts
      = .ok [(Use.node (.func 0), 1), (Use.node .root, 1)] := by
  refine ⟨?_, rfl, rfl⟩
  rfl

/-- C2 (amended): a `Node` visited while its definition is in progress
(registered in the active version, not yet counted) is not re-entered,
and the repeated visit does not change the use counts at all (the cyclic
use is not counted); planning on the concrete self-recursive input
terminates with the node listed exactly once (count `1`, from the one
non-cyclic use). -/
theorem c2_in_progress_no_reenter_no_count :
    (∀ fuel cx n (d d0 : NodeDef) s v,
      alGet s.useCounts (Use.node n) = none →
      s.versions.getLast? = some v →
      alGet v.nodeDefs n = some d0 →
      d0.defId = d.defId →
      useNode (fuel + 1) cx n d s = .ok s) ∧
    (planForRoot 100 exCx exRoot).map PlanState.useCounts
      = .ok [(Use.node (.func 0), 1), (Use.node .root, 1)] := by
  constructor
  · intro fuel cx n d d0 s v h1 h2 h3 h4
    simp [useNode, h1, h2, h3, h4]
  · rfl

/-- C2 witness: the amended in-progress rule applied at the concrete
self-recursive state. -/
theorem c2_witness :
    useNode 50 exCx (.func 0) exFuncDef exInProgress = .ok exInProgress :=
  c2_in_progress_no_reenter_no_count.1 49 exCx (.func 0) exFuncDef exFuncDef exInProgress
    { name := "", nodeDefs := [(.root, exRoot), (.func 0, exFuncDef)] } rfl rfl rfl rfl

/-- C6: printing a `Use` of a global-variable or function `Node` with no
style entry (no supplied definition — e.g. visited with no active module,
which the planner treats as a silent no-op) renders an inline
error-styled `/* undefined <category> */_` placeholder and returns
normally; the planner's no-module visit also continues without abort. -/
theorem c6_undefined_node_placeholder :
    (∀ styles n isDef, alGet styles (Use.node n) = none →
      printAsRefOrDef styles (Use.node n) isDef
        = some [.styledText none false .error ("/* undefined " ++ n.categoryAny ++ " */_")]) ∧
    (∀ fuel cx g s, s.currentModule = none →
      runStep (fuel + 1) cx (.globalVar g) s = .ok s) ∧
    (∀ fuel cx f s, s.currentModule = none →
      runStep (fuel + 1) cx (.func f) s = .ok s) := by
  refine ⟨?_, ?_, ?_⟩
  · intro styles n isDef h
    simp [printAsRefOrDef, h]
  · intro fuel cx g s h
    simp [runStep, h]
  · intro fuel cx f s h
    simp [runStep, h]

/-- C6 witness: a concrete undefined global variable renders the
placeholder, and the no-module planner visit is a no-op. -/
theorem c6_witness :
    printAsRefOrDef [] (Use.node (.globalVar 3)) false
        = some [.styledText none false .error "/* undefined global_var */_"] ∧
    runStep 1 exCx (.globalVar 3) { exInProgress with currentModule := none }
      = .ok { exInProgress with currentModule := none } :=
  ⟨c6_undefined_node_placeholder.1 [] (.globalVar 3) false rfl,
   c6_undefined_node_placeholder.2.1 0 exCx 3 { exInProgress with currentModule := none } rfl⟩

/-! ## C1: toolkit for the ordering invariant -/

theorem mem_of_listPos {α : Type} [DecidableEq α] :
    ∀ (l : List α) (u : α) (i : Nat), listPos l u = some i → u ∈ l := by
  intro l
  induction l with
  | nil => intro u i h; cases h
  | cons x rest ih =>
    intro u i h
    by_cases h0 : x = u
    · subst h0; simp
    · rw [listPos, if_neg h0] at h
      cases h1 : listPos rest u with
      | none => rw [h1] at h; cases h
      | some j => exact List.mem_cons_of_mem x (ih u j h1)

theorem listPos_of_mem {α : Type} [DecidableEq α] :
    ∀ (l : List α) (u : α), u ∈ l → ∃ i, listPos l u = some i := by
  intro l
  induction l with
  | nil => intro u h; cases h
  | cons x rest ih =>
    intro u h
    by_cases h0 : x = u
    · exact ⟨0, by rw [listPos, if_pos h0]⟩
    · have hm : u ∈ rest := by
        cases List.mem_cons.mp h with
        | inl h2 => exact absurd h2.symm h0
        | inr h2 => exact h2
      obtain ⟨i, hi⟩ := ih u hm
      exact ⟨i + 1, by rw [listPos, if_neg h0, hi]; rfl⟩

theorem listPos_lt_length {α : Type} [DecidableEq α] :
    ∀ (l : List α) (u : α) (i : Nat), listPos l u = some i → i < l.length := by
  intro l
  induction l with
  | nil => intro u i h; cases h
  | cons x rest ih =>
    intro u i h
    by_cases h0 : x = u
    · rw [listPos, if_pos h0] at h
      injection h with h
      subst h
      simp
    · rw [listPos, if_neg h0] at h
      cases h1 : listPos rest u with
      | none => rw [h1] at h; cases h
      | some j =>
        rw [h1] at h
        injection h with h
        subst h
        have := ih u j h1
        simp only [List.length_cons]
        omega

theorem listPos_append_left {α : Type} [DecidableEq α] :
    ∀ (l ks : List α) (u : α) (i : Nat), listPos l u = some i →
      listPos (l ++ ks) u = some i := by
  intro l
  induction l with
  | nil => intro ks u i h; cases h
  | cons x rest ih =>
    intro ks u i h
    by_cases h0 : x = u
    · rw [listPos, if_pos h0] at h
      rw [List.cons_append, listPos, if_pos h0]
      exact h
    · rw [listPos, if_neg h0] at h
      cases h1 : listPos rest u with
      | none => rw [h1] at h; cases h
      | some j =>
        rw [h1] at h
        rw [List.cons_append, listPos, if_neg h0, ih ks u j h1]
        exact h

theorem listPos_append_fresh {α : Type} [DecidableEq α] :
    ∀ (l : List α) (u : α) (rest : List α), u ∉ l →
      listPos (l ++ u :: rest) u = some l.length := by
  intro l
  induction l with
  | nil => intro u rest _; simp [listPos]
  | cons x xs ih =>
    intro u rest h
    have h0 : x ≠ u := fun hc => h (by simp [hc])
    have h1 : u ∉ xs := fun hc => h (by simp [hc])
    rw [List.cons_append, listPos, if_neg h0, ih u rest h1]
    rfl

theorem bBefore_mono {α : Type} [DecidableEq α] (l ks : List α) (u k : α)
    (h : bBefore l u k = true) : bBefore (l ++ ks) u k = true := by
  unfold bBefore at h ⊢
  cases hu : listPos l u with
  | none => rw [hu] at h; cases h
  | some i =>
    rw [hu] at h
    cases hk : listPos l k with
    | none => rw [hk] at h; cases h
    | some j =>
      rw [hk] at h
      rw [listPos_append_left l ks u i hu, listPos_append_left l ks k j hk]
      exact h

theorem bBefore_append_end {α : Type} [DecidableEq α] (l : List α) (u k : α)
    (hu : u ∈ l) (hk : k ∉ l) : bBefore (l ++ [k]) u k = true := by
  obtain ⟨i, hi⟩ := listPos_of_mem l u hu
  have hlen := listPos_lt_length l u i hi
  unfold bBefore
  rw [listPos_append_left l [k] u i hi, listPos_append_fresh l k [] hk]
  simpa using hlen

theorem alGet_pair_mem {κ α : Type} [DecidableEq κ] :
    ∀ (l : List (κ × α)) (k : κ) (v : α), alGet l k = some v → (k, v) ∈ l := by
  intro l
  induction l with
  | nil => intro k v h; cases h
  | cons kv rest ih =>
    intro k v h
    obtain ⟨k0, v0⟩ := kv
    by_cases h0 : k0 = k
    · subst h0
      rw [alGet, if_pos rfl] at h
      injection h with h
      subst h
      simp
    · rw [alGet, if_neg h0] at h
      exact List.mem_cons_of_mem _ (ih k v h)

theorem mem_alKeys_of_alGet {κ α : Type} [DecidableEq κ] (l : List (κ × α)) (k : κ) (v : α)
    (h : alGet l k = some v) : k ∈ alKeys l := by
  by_contra hc
  rw [← alGet_eq_none_iff] at hc
  rw [h] at hc
  cases hc

theorem alKeys_alBump_of_mem {κ : Type} [DecidableEq κ] (m : List (κ × Nat)) (k : κ)
    (h : k ∈ alKeys m) : alKeys (alBump m k) = alKeys m := by
  unfold alBump
  cases h0 : alGet m k with
  | some v => exact alKeys_alSet m k (v + 1)
  | none => exact absurd ((alGet_eq_none_iff m k).mp h0) (by simpa using h)

theorem alKeys_alBump_of_not_mem {κ : Type} [DecidableEq κ] (m : List (κ × Nat)) (k : κ)
    (h : k ∉ alKeys m) : alKeys (alBump m k) = alKeys m ++ [k] := by
  unfold alBump
  cases h0 : alGet m k with
  | some v => exact absurd (mem_alKeys_of_alGet m k v h0) h
  | none => simp [alKeys]

theorem modifyLast_getLast? {α : Type} (f : α → α) :
    ∀ l : List α, (modifyLast f l).getLast? = l.getLast?.map f := by
  intro l
  induction l with
  | nil => rfl
  | cons x rest ih =>
    cases rest with
    | nil => rfl
    | cons y ys =>
      rw [modifyLast]
      have hne : modifyLast f (y :: ys) ≠ [] := by
        cases ys <;> simp [modifyLast]
      have h1 : (x :: modifyLast f (y :: ys)).getLast? = (modifyLast f (y :: ys)).getLast? := by
        rw [show x :: modifyLast f (y :: ys) = [x] ++ modifyLast f (y :: ys) from rfl]
        exact List.getLast?_append_of_ne_nil [x] hne
      have h2 : (x :: y :: ys : List α).getLast? = (y :: ys : List α).getLast? := by
        rw [show (x :: y :: ys : List α) = [x] ++ (y :: ys) from rfl]
        exact List.getLast?_append_of_ne_nil [x] (by simp)
      rw [h1, h2, ih]

theorem nodup_pair_unique {κ α : Type} [DecidableEq κ] :
    ∀ (l : List (κ × α)), (alKeys l).Nodup → ∀ (k : κ) (a b : α),
      (k, a) ∈ l → (k, b) ∈ l → a = b := by
  intro l
  induction l with
  | nil => intro _ k a b ha _; cases ha
  | cons kv rest ih =>
    intro hn k a b ha hb
    simp only [alKeys, List.map_cons, List.nodup_cons] at hn
    rcases List.mem_cons.mp ha with ha1 | ha2 <;> rcases List.mem_cons.mp hb with hb1 | hb2
    · rw [← ha1] at hb1
      exact (Prod.mk.injEq _ _ _ _ ▸ hb1).2.symm
    · exfalso
      apply hn.1
      rw [← ha1]
      simpa [alKeys] using List.mem_map_of_mem Prod.fst hb2
    · exfalso
      apply hn.1
      rw [← hb1]
      simpa [alKeys] using List.mem_map_of_mem Prod.fst ha2
    · exact ih hn.2 k a b ha2 hb2

theorem extKeysRefl (s : PlanState) : ExtKeys s s := ⟨⟨[], by simp⟩, ⟨[], by simp⟩⟩

theorem extKeysTrans {s1 s2 s3 : PlanState} (h1 : ExtKeys s1 s2) (h2 : ExtKeys s2 s3) :
    ExtKeys s1 s3 := by
  obtain ⟨⟨ks1, hk1⟩, ⟨ds1, hd1⟩⟩ := h1
  obtain ⟨⟨ks2, hk2⟩, ⟨ds2, hd2⟩⟩ := h2
  exact ⟨⟨ks1 ++ ks2, by rw [hk2, hk1, List.append_assoc]⟩,
    ⟨ds1 ++ ds2, by rw [hd2, hd1, List.append_assoc]⟩⟩

theorem stackEqRefl (s : PlanState) : StackEq s s := fun _ => Iff.rfl

theorem stackEqTrans {s1 s2 s3 : PlanState} (h1 : StackEq s1 s2) (h2 : StackEq s2 s3) :
    StackEq s1 s3 := fun n2 => (h2 n2).trans (h1 n2)

theorem DepOk_mono {s s2 : PlanState} (h : ExtKeys s s2) {u k : Use}
    (hd : DepOk s u k) : DepOk s2 u k := by
  obtain ⟨⟨ks, hk⟩, ⟨ds, hdd⟩⟩ := h
  cases u with
  | node n2 =>
    simp only [DepOk] at hd ⊢
    rw [hdd]
    exact List.mem_append_left _ hd
  | cxInterned i =>
    simp only [DepOk, alBefore] at hd ⊢
    rw [hk]
    exact bBefore_mono _ _ _ _ hd
  | controlRegionLabel r =>
    simp only [DepOk, alBefore] at hd ⊢
    rw [hk]
    exact bBefore_mono _ _ _ _ hd
  | controlRegionInput r i =>
    simp only [DepOk, alBefore] at hd ⊢
    rw [hk]
    exact bBefore_mono _ _ _ _ hd
  | controlNodeOutput c o =>
    simp only [DepOk, alBefore] at hd ⊢
    rw [hk]
    exact bBefore_mono _ _ _ _ hd
  | dataInstOutput d =>
    simp only [DepOk, alBefore] at hd ⊢
    rw [hk]
    exact bBefore_mono _ _ _ _ hd

theorem DepReady_mono {s s2 : PlanState} (h : ExtKeys s s2) {u : Use}
    (hd : DepReady s u) : DepReady s2 u := by
  obtain ⟨⟨ks, hk⟩, ⟨ds, hdd⟩⟩ := h
  cases u with
  | node n2 =>
    simp only [DepReady] at hd ⊢
    rw [hdd]
    exact List.mem_append_left _ hd
  | cxInterned i =>
    simp only [DepReady] at hd ⊢
    rw [hk]
    exact List.mem_append_left _ hd
  | controlRegionLabel r =>
    simp only [DepReady] at hd ⊢
    rw [hk]
    exact List.mem_append_left _ hd
  | controlRegionInput r i =>
    simp only [DepReady] at hd ⊢
    rw [hk]
    exact List.mem_append_left _ hd
  | controlNodeOutput c o =>
    simp only [DepReady] at hd ⊢
    rw [hk]
    exact List.mem_append_left _ hd
  | dataInstOutput d =>
    simp only [DepReady] at hd ⊢
    rw [hk]
    exact List.mem_append_left _ hd

theorem planInv_of_keys_eq {cx : Context} {m : Module} {s s2 : PlanState}
    (hk : alKeys s2.useCounts = alKeys s.useCounts) (hd : lastDefs s2 = lastDefs s)
    (h : PlanInv cx m s) : PlanInv cx m s2 := by
  obtain ⟨h1, h2, h3, h4, h5⟩ := h
  have hdep : ∀ u k, DepOk s u k → DepOk s2 u k := by
    intro u k hD
    cases u <;> simp only [DepOk, alBefore] at hD ⊢ <;>
      first
        | (rw [hd]; exact hD)
        | (rw [hk]; exact hD)
  refine ⟨by rw [hk]; exact h1, by rw [hd]; exact h2, ?_, ?_, ?_⟩
  · intro p hp hc u hu
    exact hdep _ _ (h3 p (hd ▸ hp) (hk ▸ hc) u hu)
  · intro i hc u hu
    exact hdep _ _ (h4 i (hk ▸ hc) u hu)
  · intro n2 hc
    rw [hd]
    exact h5 n2 (hk ▸ hc)

theorem internedSteps_clean {cx : Context} (hcx : ctxClean cx) (i : CxInterned) :
    stepsClean (internedSteps cx i) = true := by
  cases i with
  | attrSet a => exact (hcx a).1
  | ty t => exact (hcx t).2.1
  | const c => exact (hcx c).2.2

/-! ## C1: carrying the ordering invariant through the planner -/

theorem pBasic_ne_nil {s s2 : PlanState} (h : PBasic s s2) (hne : s.versions ≠ []) :
    s2.versions ≠ [] := by
  intro hnil
  apply hne
  have hlen := h.2.1
  rw [hnil, List.length_nil] at hlen
  exact List.length_eq_zero.mp hlen.symm

theorem alKeys_append {κ α : Type} (l l2 : List (κ × α)) :
    alKeys (l ++ l2) = alKeys l ++ alKeys l2 := List.map_append _ _ _

theorem nodup_append_singleton {α : Type} {l : List α} {x : α}
    (h : l.Nodup) (hx : x ∉ l) : (l ++ [x]).Nodup := by
  rw [List.nodup_append]
  exact ⟨h, List.nodup_singleton x, fun a ha hb => hx ((List.mem_singleton.mp hb) ▸ ha)⟩

theorem mem_alKeys_alBump_self {κ : Type} [DecidableEq κ] (m : List (κ × Nat)) (k : κ) :
    k ∈ alKeys (alBump m k) :=
  mem_alKeys_of_alGet _ _ _ (alGet_alBump_self m k)

theorem lastDefs_register (s : PlanState) (n : Node) (d : NodeDef) (h : s.versions ≠ []) :
    lastDefs { s with versions :=
        (modifyLast (fun v2 => { v2 with nodeDefs := v2.nodeDefs ++ [(n, d)] })
          s.versions) }
      = lastDefs s ++ [(n, d)] := by
  simp only [lastDefs, modifyLast_getLast?]
  cases hl : s.versions.getLast? with
  | none => exact absurd (List.getLast?_eq_none_iff.mp hl) h
  | some v => rfl

theorem extKeys_of_eq {s s2 : PlanState}
    (hk : alKeys s2.useCounts = alKeys s.useCounts)
    (hd : alKeys (lastDefs s2) = alKeys (lastDefs s)) : ExtKeys s s2 :=
  ⟨⟨[], by rw [hk, List.append_nil]⟩, ⟨[], by rw [hd, List.append_nil]⟩⟩

theorem stackEq_of_eq {s s2 : PlanState}
    (hk : alKeys s2.useCounts = alKeys s.useCounts)
    (hd : alKeys (lastDefs s2) = alKeys (lastDefs s)) : StackEq s s2 := by
  intro n2
  rw [hk, hd]

theorem stackEq_append_nonNode {s s2 : PlanState} {k : Use}
    (hk : alKeys s2.useCounts = alKeys s.useCounts ++ [k])
    (hd : alKeys (lastDefs s2) = alKeys (lastDefs s))
    (hnn : ∀ n2 : Node, k ≠ Use.node n2) : StackEq s s2 := by
  intro n2
  rw [hk, hd]
  constructor
  · rintro ⟨h1, h2⟩
    exact ⟨h1, fun hc => h2 (List.mem_append_left _ hc)⟩
  · rintro ⟨h1, h2⟩
    refine ⟨h1, fun hc => ?_⟩
    rcases List.mem_append.mp hc with hc | hc
    · exact h2 hc
    · exact hnn n2 (List.mem_singleton.mp hc).symm

theorem depReady_to_depOk {sa s2 : PlanState} {k : Use}
    (hkeys : alKeys s2.useCounts = alKeys sa.useCounts ++ [k])
    (hdefs : alKeys (lastDefs s2) = alKeys (lastDefs sa))
    (hnot : k ∉ alKeys sa.useCounts)
    {u : Use} (hr : DepReady sa u) : DepOk s2 u k := by
  cases u <;> simp only [DepReady] at hr <;> simp only [DepOk, alBefore]
  case node => rw [hdefs]; exact hr
  all_goals rw [hkeys]; exact bBefore_append_end _ _ _ hr hnot

theorem planInv_extend_old {cx : Context} {m : Module} {sa : PlanState} (s2 : PlanState)
    {k : Use}
    (hk : alKeys s2.useCounts = alKeys sa.useCounts ++ [k])
    (hd : lastDefs s2 = lastDefs sa)
    (hinv : PlanInv cx m sa) :
    (alKeys (lastDefs s2)).Nodup ∧
    (∀ p ∈ lastDefs s2, Use.node p.1 ∈ alKeys sa.useCounts →
      ∀ u ∈ stepsUses cx (some m) p.2.steps, DepOk s2 u (Use.node p.1)) ∧
    (∀ i : CxInterned, Use.cxInterned i ∈ alKeys sa.useCounts →
      ∀ u ∈ stepsUses cx (some m) (internedSteps cx i), DepOk s2 u (Use.cxInterned i)) ∧
    (∀ n2 : Node, Use.node n2 ∈ alKeys sa.useCounts → n2 ∈ alKeys (lastDefs s2)) := by
  obtain ⟨h1, h2, h3, h4, h5⟩ := hinv
  have hext : ExtKeys sa s2 := ⟨⟨[k], hk⟩, ⟨[], by rw [hd, List.append_nil]⟩⟩
  refine ⟨by rw [hd]; exact h2, ?_, ?_, ?_⟩
  · intro p hp hc u hu
    exact DepOk_mono hext (h3 p (hd ▸ hp) hc u hu)
  · intro i hc u hu
    exact DepOk_mono hext (h4 i hc u hu)
  · intro n2 hc
    rw [hd]
    exact h5 n2 hc

theorem planInv_append_nonNode {cx : Context} {m : Module} {s : PlanState} (s2 : PlanState)
    {k : Use}
    (hk : alKeys s2.useCounts = alKeys s.useCounts ++ [k])
    (hd : lastDefs s2 = lastDefs s)
    (hfresh : k ∉ alKeys s.useCounts)
    (hnn : ∀ n2 : Node, k ≠ Use.node n2)
    (hni : ∀ i : CxInterned, k ≠ Use.cxInterned i)
    (hinv : PlanInv cx m s) : PlanInv cx m s2 := by
  obtain ⟨hold1, hold2, hold3, hold4⟩ := planInv_extend_old s2 hk hd hinv
  refine ⟨by rw [hk]; exact nodup_append_singleton hinv.1 hfresh, hold1, ?_, ?_, ?_⟩
  · intro p hp hc u hu
    rcases List.mem_append.mp (hk ▸ hc) with hc2 | hc2
    · exact hold2 p hp hc2 u hu
    · exact absurd (List.mem_singleton.mp hc2).symm (hnn p.1)
  · intro i hc u hu
    rcases List.mem_append.mp (hk ▸ hc) with hc2 | hc2
    · exact hold3 i hc2 u hu
    · exact absurd (List.mem_singleton.mp hc2).symm (hni i)
  · intro n2 hc
    rcases List.mem_append.mp (hk ▸ hc) with hc2 | hc2
    · exact hold4 n2 hc2
    · exact absurd (List.mem_singleton.mp hc2).symm (hnn n2)

theorem planInv_register {cx : Context} {m : Module} {s : PlanState} (n : Node) (d : NodeDef)
    (hne : s.versions ≠ [])
    (hnreg : n ∉ alKeys (lastDefs s))
    (hncnt : Use.node n ∉ alKeys s.useCounts)
    (hinv : PlanInv cx m s) :
    PlanInv cx m { s with versions :=
      (modifyLast (fun v2 => { v2 with nodeDefs := v2.nodeDefs ++ [(n, d)] })
        s.versions) } := by
  have hreg := lastDefs_register s n d hne
  have hkeysd : alKeys (lastDefs { s with versions :=
      (modifyLast (fun v2 => { v2 with nodeDefs := v2.nodeDefs ++ [(n, d)] })
        s.versions) }) = alKeys (lastDefs s) ++ [n] := by
    rw [hreg, alKeys_append]
    rfl
  have hext : ExtKeys s { s with versions :=
      (modifyLast (fun v2 => { v2 with nodeDefs := v2.nodeDefs ++ [(n, d)] })
        s.versions) } := ⟨⟨[], (List.append_nil _).symm⟩, ⟨[n], hkeysd⟩⟩
  obtain ⟨h1, h2, h3, h4, h5⟩ := hinv
  refine ⟨h1, by rw [hkeysd]; exact nodup_append_singleton h2 hnreg, ?_, ?_, ?_⟩
  · intro p hp hc u hu
    rw [hreg] at hp
    rcases List.mem_append.mp hp with hp2 | hp2
    · exact DepOk_mono hext (h3 p hp2 hc u hu)
    · rw [List.mem_singleton] at hp2
      subst hp2
      exact absurd hc hncnt
  · intro i hc u hu
    exact DepOk_mono hext (h4 i hc u hu)
  · intro n2 hc
    rw [hkeysd]
    exact List.mem_append_left _ (h5 n2 hc)

theorem depOk_to_final {sIn s : PlanState} {u k : Use}
    (hkeys : ∃ ks, alKeys s.useCounts = alKeys sIn.useCounts ++ ks)
    (hdefs : alKeys (lastDefs s) = alKeys (lastDefs sIn))
    (hcnt : ∀ n2 ∈ alKeys (lastDefs s), Use.node n2 ∈ alKeys s.useCounts)
    (h : DepOk sIn u k) : depOkFinal s u k := by
  obtain ⟨ks, hk⟩ := hkeys
  cases u <;> simp only [DepOk, alBefore] at h <;> simp only [depOkFinal, alBefore]
  case node => exact hcnt _ (by rw [hdefs]; exact h)
  all_goals rw [hk]; exact bBefore_mono _ _ _ _ h

theorem depReady_to_final {sIn s : PlanState} {u k : Use}
    (hkeys : alKeys s.useCounts = alKeys sIn.useCounts ++ [k])
    (hnot : k ∉ alKeys sIn.useCounts)
    (hdefs : alKeys (lastDefs s) = alKeys (lastDefs sIn))
    (hcnt : ∀ n2 ∈ alKeys (lastDefs s), Use.node n2 ∈ alKeys s.useCounts)
    (hr : DepReady sIn u) : depOkFinal s u k := by
  cases u <;> simp only [DepReady] at hr <;> simp only [depOkFinal, alBefore]
  case node => exact hcnt _ (by rw [hdefs]; exact hr)
  all_goals rw [hkeys]; exact bBefore_append_end _ _ _ hr hnot

/-- The transition facts every completed planner call satisfies: keys only
accumulate, the active registration table only grows (entry-wise), and the
in-progress set is unchanged. -/
def POrder (s s2 : PlanState) : Prop :=
  ExtKeys s s2 ∧ (∃ es, lastDefs s2 = lastDefs s ++ es) ∧ StackEq s s2

theorem pOrderRefl (s : PlanState) : POrder s s :=
  ⟨extKeysRefl s, ⟨[], (List.append_nil _).symm⟩, stackEqRefl s⟩

theorem pOrderTrans {s1 s2 s3 : PlanState} (h1 : POrder s1 s2) (h2 : POrder s2 s3) :
    POrder s1 s3 := by
  obtain ⟨e1, ⟨es1, hd1⟩, k1⟩ := h1
  obtain ⟨e2, ⟨es2, hd2⟩, k2⟩ := h2
  exact ⟨extKeysTrans e1 e2, ⟨es1 ++ es2, by rw [hd2, hd1, List.append_assoc]⟩,
    stackEqTrans k1 k2⟩

theorem pOrder_of_eq {s s2 : PlanState}
    (hk : alKeys s2.useCounts = alKeys s.useCounts)
    (hd : lastDefs s2 = lastDefs s) : POrder s s2 :=
  ⟨extKeys_of_eq hk (by rw [hd]), ⟨[], by rw [hd, List.append_nil]⟩,
    stackEq_of_eq hk (by rw [hd])⟩

theorem defClean_steps {d : NodeDef} (h : defClean d = true) : stepsClean d.steps = true := by
  cases d
  exact h

theorem bump_state_facts {cx : Context} {m : Module} (s : PlanState) (k : Use)
    (hnn : ∀ n2 : Node, k ≠ Use.node n2)
    (hni : ∀ i : CxInterned, k ≠ Use.cxInterned i)
    (hinv : PlanInv cx m s) :
    PlanInv cx m { s with useCounts := alBump s.useCounts k } ∧
      POrder s { s with useCounts := alBump s.useCounts k } ∧
      k ∈ alKeys ({ s with useCounts := alBump s.useCounts k } : PlanState).useCounts := by
  by_cases hmem : k ∈ alKeys s.useCounts
  · have hkeq : alKeys ({ s with useCounts := alBump s.useCounts k } : PlanState).useCounts
        = alKeys s.useCounts := alKeys_alBump_of_mem _ _ hmem
    exact ⟨planInv_of_keys_eq hkeq rfl hinv, pOrder_of_eq hkeq rfl,
      mem_alKeys_alBump_self _ _⟩
  · have hknew : alKeys ({ s with useCounts := alBump s.useCounts k } : PlanState).useCounts
        = alKeys s.useCounts ++ [k] := alKeys_alBump_of_not_mem _ _ hmem
    exact ⟨planInv_append_nonNode _ hknew rfl hmem hnn hni hinv,
      ⟨⟨⟨[k], hknew⟩, ⟨[], (List.append_nil _).symm⟩⟩, ⟨[], (List.append_nil _).symm⟩,
        stackEq_append_nonNode hknew rfl hnn⟩,
      mem_alKeys_alBump_self _ _⟩

theorem planOrderAll (cx : Context) (m : Module) (hcx : ctxClean cx) (hm : moduleClean m) :
    ∀ fuel : Nat,
    (∀ i s s2, s.currentModule = some m → s.versions ≠ [] → PlanInv cx m s →
      useInterned fuel cx i s = .ok s2 →
      PlanInv cx m s2 ∧ POrder s s2 ∧ Use.cxInterned i ∈ alKeys s2.useCounts) ∧
    (∀ n d s s2, s.currentModule = some m → s.versions ≠ [] → PlanInv cx m s →
      defClean d = true → useNode fuel cx n d s = .ok s2 →
      PlanInv cx m s2 ∧ POrder s s2 ∧ n ∈ alKeys (lastDefs s2)) ∧
    (∀ steps s s2, s.currentModule = some m → s.versions ≠ [] → PlanInv cx m s →
      stepsClean steps = true → runSteps fuel cx steps s = .ok s2 →
      PlanInv cx m s2 ∧ POrder s s2 ∧ ∀ u ∈ stepsUses cx (some m) steps, DepReady s2 u) ∧
    (∀ st s s2, s.currentModule = some m → s.versions ≠ [] → PlanInv cx m s →
      stepClean st = true → runStep fuel cx st s = .ok s2 →
      PlanInv cx m s2 ∧ POrder s s2 ∧ ∀ u ∈ stepUses cx (some m) st, DepReady s2 u) := by
  intro fuel
  induction fuel with
  | zero =>
    refine ⟨?_, ?_, ?_, ?_⟩
    · intro i s s2 _ _ _ h
      simp [useInterned] at h
    · intro n d s s2 _ _ _ _ h
      simp [useNode] at h
    · intro steps s s2 _ _ _ _ h
      simp [runSteps] at h
    · intro st s s2 _ _ _ _ h
      simp [runStep] at h
  | succ fuel ih =>
    obtain ⟨ih1, ih2, ih3, ih4⟩ := ih
    refine ⟨?_, ?_, ?_, ?_⟩
    · -- use_interned
      intro i s s2 hcm hne hinv h
      rw [useInterned] at h
      cases hg : alGet s.useCounts (Use.cxInterned i) with
      | some c =>
        simp only [hg] at h
        injection h with h
        subst h
        refine ⟨planInv_of_keys_eq (alKeys_alSet _ _ _) rfl hinv,
          pOrder_of_eq (alKeys_alSet _ _ _) rfl, ?_⟩
        show Use.cxInterned i ∈ alKeys (alSet s.useCounts (Use.cxInterned i) (c + 1))
        rw [alKeys_alSet]
        exact mem_alKeys_of_alGet _ _ _ hg
      | none =>
        simp only [hg] at h
        cases h1 : runSteps fuel cx (internedSteps cx i) s with
        | error e => simp [h1] at h
        | ok sa =>
          simp only [h1] at h
          cases h2 : useNode fuel cx .allCxInterned allCxInternedDef sa with
          | error e => simp [h2] at h
          | ok sb =>
            simp only [h2] at h
            injection h with h
            subst h
            have hba := (planBasicAll fuel).2.2.1 _ _ _ _ h1
            have hcma : sa.currentModule = some m := hba.1.trans hcm
            have hnea := pBasic_ne_nil hba hne
            obtain ⟨invA, ordA, readyA⟩ :=
              ih3 (internedSteps cx i) s sa hcm hne hinv (internedSteps_clean hcx i) h1
            obtain ⟨invB, ordB, memB⟩ :=
              ih2 .allCxInterned allCxInternedDef sa sb hcma hnea invA rfl h2
            by_cases hmem : Use.cxInterned i ∈ alKeys sb.useCounts
            · have hkeq : alKeys ({ sb with useCounts := alBump sb.useCounts (Use.cxInterned i) } : PlanState).useCounts
                  = alKeys sb.useCounts := alKeys_alBump_of_mem _ _ hmem
              exact ⟨planInv_of_keys_eq hkeq rfl invB,
                pOrderTrans (pOrderTrans ordA ordB) (pOrder_of_eq hkeq rfl),
                mem_alKeys_alBump_self _ _⟩
            · have hknew : alKeys ({ sb with useCounts := alBump sb.useCounts (Use.cxInterned i) } : PlanState).useCounts
                  = alKeys sb.useCounts ++ [Use.cxInterned i] :=
                alKeys_alBump_of_not_mem _ _ hmem
              obtain ⟨hold1, hold2, hold3, hold4⟩ := planInv_extend_old
                ({ sb with useCounts := alBump sb.useCounts (Use.cxInterned i) } : PlanState)
                hknew rfl invB
              refine ⟨⟨by rw [hknew]; exact nodup_append_singleton invB.1 hmem,
                  hold1, ?_, ?_, ?_⟩,
                pOrderTrans (pOrderTrans ordA ordB)
                  ⟨⟨⟨[Use.cxInterned i], hknew⟩, ⟨[], (List.append_nil _).symm⟩⟩,
                    ⟨[], (List.append_nil _).symm⟩,
                    stackEq_append_nonNode hknew rfl (fun n2 => by simp)⟩,
                by rw [hknew]; exact List.mem_append_right _ (List.mem_singleton.mpr rfl)⟩
              · intro p hp hc u hu
                rw [hknew] at hc
                rcases List.mem_append.mp hc with hc2 | hc2
                · exact hold2 p hp hc2 u hu
                · exact absurd (List.mem_singleton.mp hc2) (by simp)
              · intro i2 hc u hu
                rw [hknew] at hc
                rcases List.mem_append.mp hc with hc2 | hc2
                · exact hold3 i2 hc2 u hu
                · have hi : i2 = i := by
                    have h3 := List.mem_singleton.mp hc2
                    exact Use.cxInterned.inj h3
                  subst hi
                  exact depReady_to_depOk hknew rfl hmem
                    (DepReady_mono ordB.1 (readyA u hu))
              · intro n2 hc
                rw [hknew] at hc
                rcases List.mem_append.mp hc with hc2 | hc2
                · exact hold4 n2 hc2
                · exact absurd (List.mem_singleton.mp hc2) (by simp)
    · -- use_node
      intro n d s s2 hcm hne hinv hdc h
      rw [useNode] at h
      cases hg : alGet s.useCounts (Use.node n) with
      | some c =>
        simp only [hg] at h
        injection h with h
        subst h
        refine ⟨planInv_of_keys_eq (alKeys_alSet _ _ _) rfl hinv,
          pOrder_of_eq (alKeys_alSet _ _ _) rfl, ?_⟩
        exact hinv.2.2.2.2 n (mem_alKeys_of_alGet _ _ _ hg)
      | none =>
        simp only [hg] at h
        cases hl : s.versions.getLast? with
        | none => simp [hl] at h
        | some v =>
          simp only [hl] at h
          cases hd0 : alGet v.nodeDefs n with
          | some d0 =>
            simp only [hd0] at h
            by_cases he : d0.defId = d.defId
            · rw [if_pos he] at h
              injection h with h
              subst h
              refine ⟨hinv, pOrderRefl s, ?_⟩
              have hld : lastDefs s = v.nodeDefs := by
                simp only [lastDefs, hl]
              rw [hld]
              exact mem_alKeys_of_alGet _ _ _ hd0
            · rw [if_neg he] at h
              cases h
          | none =>
            simp only [hd0] at h
            cases h1 : runSteps fuel cx d.steps
                { s with versions :=
                    (modifyLast (fun v2 => { v2 with nodeDefs := v2.nodeDefs ++ [(n, d)] })
                      s.versions) } with
            | error e => simp [h1] at h
            | ok sa =>
              simp only [h1] at h
              injection h with h
              subst h
              have hld : lastDefs s = v.nodeDefs := by
                simp only [lastDefs, hl]
              have hnreg : n ∉ alKeys (lastDefs s) := by
                rw [hld]
                exact (alGet_eq_none_iff _ _).mp hd0
              have hncnt : Use.node n ∉ alKeys s.useCounts := (alGet_eq_none_iff _ _).mp hg
              have hinv1 := planInv_register n d hne hnreg hncnt hinv
              have hreg := lastDefs_register s n d hne
              have hne1 : ({ s with versions :=
                  (modifyLast (fun v2 => { v2 with nodeDefs := v2.nodeDefs ++ [(n, d)] })
                    s.versions) } : PlanState).versions ≠ [] := by
                show modifyLast _ s.versions ≠ []
                intro hc
                apply hne
                have h5 := modifyLast_length
                  (fun v2 => { v2 with nodeDefs := v2.nodeDefs ++ [(n, d)] }) s.versions
                rw [hc, List.length_nil] at h5
                exact List.length_eq_zero.mp h5.symm
              have hcm1 : ({ s with versions :=
                  (modifyLast (fun v2 => { v2 with nodeDefs := v2.nodeDefs ++ [(n, d)] })
                    s.versions) } : PlanState).currentModule = some m := hcm
              obtain ⟨invA, ordA, readyA⟩ := ih3 d.steps
                ({ s with versions :=
                  (modifyLast (fun v2 => { v2 with nodeDefs := v2.nodeDefs ++ [(n, d)] })
                    s.versions) } : PlanState) sa hcm1 hne1 hinv1
                (defClean_steps hdc) h1
              obtain ⟨extA, ⟨esA, defsA⟩, stkA⟩ := ordA
              have hmem1 : n ∈ alKeys (lastDefs ({ s with versions :=
                  (modifyLast (fun v2 => { v2 with nodeDefs := v2.nodeDefs ++ [(n, d)] })
                    s.versions) } : PlanState)) := by
                rw [hreg, alKeys_append]
                exact List.mem_append_right _ (List.mem_singleton.mpr rfl)
              obtain ⟨hmemA, hncntA⟩ := (stkA n).mpr ⟨hmem1, hncnt⟩
              have hknew : alKeys ({ sa with useCounts := alBump sa.useCounts (Use.node n) } : PlanState).useCounts
                  = alKeys sa.useCounts ++ [Use.node n] :=
                alKeys_alBump_of_not_mem _ _ hncntA
              obtain ⟨hold1, hold2, hold3, hold4⟩ := planInv_extend_old
                ({ sa with useCounts := alBump sa.useCounts (Use.node n) } : PlanState)
                hknew rfl invA
              have hpair1 : (n, d) ∈ lastDefs sa := by
                rw [defsA, hreg]
                exact List.mem_append_left _
                  (List.mem_append_right _ (List.mem_singleton.mpr rfl))
              refine ⟨⟨by rw [hknew]; exact nodup_append_singleton invA.1 hncntA,
                  hold1, ?_, ?_, ?_⟩, ⟨⟨?_, ?_⟩, ?_, ?_⟩, hmemA⟩
              · intro p hp hc u hu
                rw [hknew] at hc
                rcases List.mem_append.mp hc with hc2 | hc2
                · exact hold2 p hp hc2 u hu
                · have hp1 : p.1 = n := Use.node.inj (List.mem_singleton.mp hc2)
                  have hpd : p.2 = d := by
                    have hp3 : (n, p.2) ∈ lastDefs sa := by
                      rw [← hp1]
                      exact hp
                    exact nodup_pair_unique _ invA.2.1 n p.2 d hp3 hpair1
                  rw [hpd] at hu
                  rw [hp1]
                  exact depReady_to_depOk hknew rfl hncntA (readyA u hu)
              · intro i2 hc u hu
                rw [hknew] at hc
                rcases List.mem_append.mp hc with hc2 | hc2
                · exact hold3 i2 hc2 u hu
                · exact absurd (List.mem_singleton.mp hc2) (by simp)
              · intro n2 hc
                rw [hknew] at hc
                rcases List.mem_append.mp hc with hc2 | hc2
                · exact hold4 n2 hc2
                · have h4 := Use.node.inj (List.mem_singleton.mp hc2)
                  subst h4
                  exact hmemA
              · obtain ⟨ksA, hksA⟩ := extA.1
                refine ⟨ksA ++ [Use.node n], ?_⟩
                rw [hknew, hksA, List.append_assoc]
              · refine ⟨[n] ++ alKeys esA, ?_⟩
                show alKeys (lastDefs sa) = _
                rw [defsA, alKeys_append, hreg, alKeys_append, List.append_assoc]
                rfl
              · refine ⟨[(n, d)] ++ esA, ?_⟩
                show lastDefs sa = _
                rw [defsA, hreg, List.append_assoc]
              · intro n2
                constructor
                · rintro ⟨hm2, hnc2⟩
                  have hne2 : n2 ≠ n := by
                    intro hEq
                    subst hEq
                    apply hnc2
                    rw [hknew]
                    exact List.mem_append_right _ (List.mem_singleton.mpr rfl)
                  have hncA : Use.node n2 ∉ alKeys sa.useCounts := by
                    intro hc
                    exact hnc2 (by rw [hknew]; exact List.mem_append_left _ hc)
                  obtain ⟨hm1, hnc1⟩ := (stkA n2).mp ⟨hm2, hncA⟩
                  rw [hreg, alKeys_append] at hm1
                  refine ⟨?_, hnc1⟩
                  rcases List.mem_append.mp hm1 with h5 | h5
                  · exact h5
                  · exact absurd (by simpa [alKeys] using h5) hne2
                · rintro ⟨hms, hncs⟩
                  have hne2 : n2 ≠ n := fun hEq => hnreg (hEq ▸ hms)
                  have hm1 : n2 ∈ alKeys (lastDefs ({ s with versions :=
                      (modifyLast (fun v2 => { v2 with nodeDefs := v2.nodeDefs ++ [(n, d)] })
                        s.versions) } : PlanState)) := by
                    rw [hreg, alKeys_append]
                    exact List.mem_append_left _ hms
                  obtain ⟨hmA2, hncA2⟩ := (stkA n2).mpr ⟨hm1, hncs⟩
                  refine ⟨hmA2, ?_⟩
                  intro hc
                  rw [hknew] at hc
                  rcases List.mem_append.mp hc with hc2 | hc2
                  · exact hncA2 hc2
                  · exact hne2 (Use.node.inj (List.mem_singleton.mp hc2))
    · -- run steps
      intro steps s s2 hcm hne hinv hsc h
      cases steps with
      | nil =>
        rw [runSteps] at h
        injection h with h
        subst h
        refine ⟨hinv, pOrderRefl s, ?_⟩
        intro u hu
        simp [stepsUses] at hu
      | cons st rest =>
        rw [runSteps] at h
        cases h1 : runStep fuel cx st s with
        | error e => simp [h1] at h
        | ok sa =>
          simp only [h1] at h
          simp only [stepsClean, Bool.and_eq_true] at hsc
          have hba := (planBasicAll fuel).2.2.2 _ _ _ _ h1
          have hcma : sa.currentModule = some m := hba.1.trans hcm
          have hnea := pBasic_ne_nil hba hne
          obtain ⟨invA, ordA, readyA⟩ := ih4 st s sa hcm hne hinv hsc.1 h1
          obtain ⟨invB, ordB, readyB⟩ := ih3 rest sa s2 hcma hnea invA hsc.2 h
          refine ⟨invB, pOrderTrans ordA ordB, ?_⟩
          intro u hu
          simp only [stepsUses] at hu
          rcases List.mem_append.mp hu with hu2 | hu2
          · exact DepReady_mono ordB.1 (readyA u hu2)
          · exact readyB u hu2
    · -- run one step
      intro st s s2 hcm hne hinv hsc h
      cases st with
      | attrSet a =>
        rw [runStep] at h
        obtain ⟨invA, ordA, memA⟩ := ih1 (.attrSet a) s s2 hcm hne hinv h
        refine ⟨invA, ordA, ?_⟩
        intro u hu
        simp only [stepUses, List.mem_singleton] at hu
        subst hu
        exact memA
      | ty t =>
        rw [runStep] at h
        obtain ⟨invA, ordA, memA⟩ := ih1 (.ty t) s s2 hcm hne hinv h
        refine ⟨invA, ordA, ?_⟩
        intro u hu
        simp only [stepUses, List.mem_singleton] at hu
        subst hu
        exact memA
      | const c =>
        rw [runStep] at h
        obtain ⟨invA, ordA, memA⟩ := ih1 (.const c) s s2 hcm hne hinv h
        refine ⟨invA, ordA, ?_⟩
        intro u hu
        simp only [stepUses, List.mem_singleton] at hu
        subst hu
        exact memA
      | globalVar g =>
        rw [runStep] at h
        simp only [hcm] at h
        cases hge : alGet m.globalVars g with
        | none => simp [hge] at h
        | some d =>
          simp only [hge] at h
          have hdc : defClean d = true := hm.2.1 (g, d) (alGet_pair_mem _ _ _ hge)
          obtain ⟨invA, ordA, memA⟩ := ih2 (.globalVar g) d s s2 hcm hne hinv hdc h
          refine ⟨invA, ordA, ?_⟩
          intro u hu
          simp only [stepUses, hge, List.mem_singleton] at hu
          subst hu
          exact memA
      | func f =>
        rw [runStep] at h
        simp only [hcm] at h
        cases hge : alGet m.funcs f with
        | none => simp [hge] at h
        | some d =>
          simp only [hge] at h
          have hdc : defClean d = true := hm.2.2 (f, d) (alGet_pair_mem _ _ _ hge)
          obtain ⟨invA, ordA, memA⟩ := ih2 (.func f) d s s2 hcm hne hinv hdc h
          refine ⟨invA, ordA, ?_⟩
          intro u hu
          simp only [stepUses, hge, List.mem_singleton] at hu
          subst hu
          exact memA
      | value v =>
        cases v with
        | const c =>
          simp only [runStep] at h
          obtain ⟨invA, ordA, memA⟩ := ih1 (.const c) s s2 hcm hne hinv h
          refine ⟨invA, ordA, ?_⟩
          intro u hu
          simp only [stepUses, useOfValue, List.mem_singleton] at hu
          subst hu
          exact memA
        | controlRegionInput r i =>
          simp only [runStep] at h
          injection h with h
          subst h
          obtain ⟨invA, ordA, memA⟩ := bump_state_facts s
            (useOfValue (Value.controlRegionInput r i))
            (fun n2 => by simp [useOfValue]) (fun i2 => by simp [useOfValue]) hinv
          refine ⟨invA, ordA, ?_⟩
          intro u hu
          simp only [stepUses, List.mem_singleton] at hu
          subst hu
          exact memA
        | controlNodeOutput c o =>
          simp only [runStep] at h
          injection h with h
          subst h
          obtain ⟨invA, ordA, memA⟩ := bump_state_facts s
            (useOfValue (Value.controlNodeOutput c o))
            (fun n2 => by simp [useOfValue]) (fun i2 => by simp [useOfValue]) hinv
          refine ⟨invA, ordA, ?_⟩
          intro u hu
          simp only [stepUses, List.mem_singleton] at hu
          subst hu
          exact memA
        | dataInstOutput d =>
          simp only [runStep] at h
          injection h with h
          subst h
          obtain ⟨invA, ordA, memA⟩ := bump_state_facts s
            (useOfValue (Value.dataInstOutput d))
            (fun n2 => by simp [useOfValue]) (fun i2 => by simp [useOfValue]) hinv
          refine ⟨invA, ordA, ?_⟩
          intro u hu
          simp only [stepUses, List.mem_singleton] at hu
          subst hu
          exact memA
      | label r =>
        rw [runStep] at h
        injection h with h
        subst h
        obtain ⟨invA, ordA, memA⟩ := bump_state_facts s (Use.controlRegionLabel r)
          (fun n2 => by simp) (fun i2 => by simp) hinv
        refine ⟨invA, ordA, ?_⟩
        intro u hu
        simp only [stepUses, List.mem_singleton] at hu
        subst hu
        exact memA
      | dialect d =>
        rw [runStep] at h
        obtain ⟨invA, ordA, memA⟩ := ih2 .moduleDialect d s s2 hcm hne hinv hsc h
        refine ⟨invA, ordA, ?_⟩
        intro u hu
        simp only [stepUses, List.mem_singleton] at hu
        subst hu
        exact memA
      | debugInfo d =>
        rw [runStep] at h
        obtain ⟨invA, ordA, memA⟩ := ih2 .moduleDebugInfo d s s2 hcm hne hinv hsc h
        refine ⟨invA, ordA, ?_⟩
        intro u hu
        simp only [stepUses, List.mem_singleton] at hu
        subst hu
        exact memA
      | moduleVisit mm =>
        simp [stepClean] at hsc

theorem stepsUses_moduleVisit (cx : Context) (m : Module) (hid : Module.ctxId m = Context.ctxId cx) :
    stepsUses cx (some m) [VisitStep.moduleVisit m] = stepsUses cx (some m) m.steps := by
  obtain ⟨mc, mg, mf, ms⟩ := m
  have hid2 : mc = cx.ctxId := hid
  simp only [stepsUses, stepUses, Module.steps]
  rw [if_pos hid2, List.append_nil]

theorem c1_root_aux (fuel : Nat) (cx : Context) (m : Module) (rid : Nat) (nm : String)
    (s0 s : PlanState)
    (hcx : ctxClean cx) (hm : moduleClean m)
    (hu0 : s0.useCounts = []) (hv0 : s0.versions = [{ name := nm, nodeDefs := [] }])
    (h : useNode fuel cx Node.root (NodeDef.mk rid [VisitStep.moduleVisit m] none) s0
      = .ok s) :
    (alKeys s.useCounts).Nodup ∧ (alKeys (lastDefs s)).Nodup ∧
      (∀ n ∈ alKeys (lastDefs s), Use.node n ∈ alKeys s.useCounts) ∧
      ∀ p ∈ lastDefs s, ∀ u ∈ stepsUses cx (some m) p.2.steps,
        depOkFinal s u (Use.node p.1) := by
  cases fuel with
  | zero => simp [useNode] at h
  | succ f =>
    rw [useNode] at h
    have hg : alGet s0.useCounts (Use.node Node.root) = none := by
      rw [hu0]
      rfl
    simp only [hg] at h
    have hl : s0.versions.getLast? = some { name := nm, nodeDefs := [] } := by
      rw [hv0]
      rfl
    simp only [hl] at h
    have hd0 : alGet ({ name := nm, nodeDefs := [] } : PlanVersion).nodeDefs Node.root
        = none := rfl
    simp only [hd0] at h
    simp only [NodeDef.steps] at h
    cases h1 : runSteps f cx [VisitStep.moduleVisit m]
        { s0 with versions :=
            (modifyLast (fun v2 => { v2 with nodeDefs := v2.nodeDefs
                ++ [(Node.root, NodeDef.mk rid [VisitStep.moduleVisit m] none)] })
              s0.versions) } with
    | error e => simp [h1] at h
    | ok sOut =>
      simp only [h1] at h
      injection h with h
      cases f with
      | zero => simp [runSteps] at h1
      | succ f2 =>
        rw [runSteps] at h1
        cases h2 : runStep f2 cx (VisitStep.moduleVisit m)
            { s0 with versions :=
                (modifyLast (fun v2 => { v2 with nodeDefs := v2.nodeDefs
                    ++ [(Node.root, NodeDef.mk rid [VisitStep.moduleVisit m] none)] })
                  s0.versions) } with
        | error e => simp [h2] at h1
        | ok sAfter =>
          simp only [h2] at h1
          cases f2 with
          | zero => simp [runStep] at h2
          | succ f3 =>
            rw [runSteps] at h1
            injection h1 with h1
            subst h1
            rw [runStep] at h2
            by_cases hid : Module.ctxId m = Context.ctxId cx
            · rw [if_pos hid] at h2
              cases h3 : runSteps f3 cx m.steps
                  { ({ s0 with versions :=
                      (modifyLast (fun v2 => { v2 with nodeDefs := v2.nodeDefs
                          ++ [(Node.root, NodeDef.mk rid [VisitStep.moduleVisit m] none)] })
                        s0.versions) } : PlanState) with currentModule := some m } with
              | error e => simp [h3] at h2
              | ok sIn =>
                simp only [h3] at h2
                injection h2 with h2
                subst h2
                have hldMod : lastDefs
                    { ({ s0 with versions :=
                        (modifyLast (fun v2 => { v2 with nodeDefs := v2.nodeDefs
                            ++ [(Node.root,
                                  NodeDef.mk rid [VisitStep.moduleVisit m] none)] })
                          s0.versions) } : PlanState) with currentModule := some m }
                    = [(Node.root, NodeDef.mk rid [VisitStep.moduleVisit m] none)] := by
                  simp only [lastDefs, modifyLast_getLast?, hv0]
                  rfl
                have hucMod : ({ ({ s0 with versions :=
                    (modifyLast (fun v2 => { v2 with nodeDefs := v2.nodeDefs
                        ++ [(Node.root, NodeDef.mk rid [VisitStep.moduleVisit m] none)] })
                      s0.versions) } : PlanState) with currentModule := some m }
                    : PlanState).useCounts = [] := hu0
                obtain ⟨invIn, ⟨extIn, ⟨es, defsIn⟩, stkIn⟩, readyIn⟩ :=
                  (planOrderAll cx m hcx hm f3).2.2.1 m.steps
                    ({ ({ s0 with versions :=
                        (modifyLast (fun v2 => { v2 with nodeDefs := v2.nodeDefs
                            ++ [(Node.root,
                                  NodeDef.mk rid [VisitStep.moduleVisit m] none)] })
                          s0.versions) } : PlanState) with currentModule := some m }
                      : PlanState) sIn rfl
                    (by
                      show modifyLast _ s0.versions ≠ []
                      rw [hv0]
                      simp [modifyLast])
                    (by
                      refine ⟨?_, ?_, ?_, ?_, ?_⟩
                      · rw [hucMod]
                        simp [alKeys]
                      · rw [hldMod]
                        simp [alKeys]
                      · intro p hp hc u hu
                        rw [hucMod] at hc
                        simp [alKeys] at hc
                      · intro i hc u hu
                        rw [hucMod] at hc
                        simp [alKeys] at hc
                      · intro n2 hc
                        rw [hucMod] at hc
                        simp [alKeys] at hc)
                    hm.1 h3
                obtain ⟨hrm, hrc⟩ := (stkIn Node.root).mpr
                  ⟨by rw [hldMod]; simp [alKeys], by rw [hucMod]; simp [alKeys]⟩
                have hsc : s.useCounts = alBump sIn.useCounts (Use.node Node.root) := by
                  rw [← h]
                have hsv : lastDefs s = lastDefs sIn := by
                  rw [← h]
                  rfl
                have hkeys : alKeys s.useCounts
                    = alKeys sIn.useCounts ++ [Use.node Node.root] := by
                  rw [hsc]
                  exact alKeys_alBump_of_not_mem _ _ hrc
                have hdefs : alKeys (lastDefs s) = alKeys (lastDefs sIn) := by
                  rw [hsv]
                have hallcnt : ∀ n ∈ alKeys (lastDefs s),
                    Use.node n ∈ alKeys s.useCounts := by
                  intro n hn
                  rw [hsv] at hn
                  rw [hkeys]
                  by_cases hnr : n = Node.root
                  · subst hnr
                    exact List.mem_append_right _ (List.mem_singleton.mpr rfl)
                  · refine List.mem_append_left _ ?_
                    by_contra hnc
                    obtain ⟨hn0, _⟩ := (stkIn n).mp ⟨hn, hnc⟩
                    rw [hldMod] at hn0
                    simp [alKeys] at hn0
                    exact hnr hn0
                refine ⟨by rw [hkeys]; exact nodup_append_singleton invIn.1 hrc,
                  by rw [hdefs]; exact invIn.2.1, hallcnt, ?_⟩
                intro p hp u hu
                rw [hsv] at hp
                by_cases hpr : p.1 = Node.root
                · have hpair : (Node.root, NodeDef.mk rid [VisitStep.moduleVisit m] none)
                      ∈ lastDefs sIn := by
                    rw [defsIn, hldMod]
                    exact List.mem_append_left _ (List.mem_singleton.mpr rfl)
                  have hp3 : (Node.root, p.2) ∈ lastDefs sIn := by
                    rw [← hpr]
                    exact hp
                  have hpd : p.2 = NodeDef.mk rid [VisitStep.moduleVisit m] none :=
                    nodup_pair_unique _ invIn.2.1 Node.root p.2 _ hp3 hpair
                  rw [hpd] at hu
                  simp only [NodeDef.steps] at hu
                  rw [stepsUses_moduleVisit cx m hid] at hu
                  rw [hpr]
                  exact depReady_to_final hkeys hrc hdefs hallcnt (readyIn u hu)
                · have hmem : p.1 ∈ alKeys (lastDefs sIn) :=
                    List.mem_map_of_mem Prod.fst hp
                  have hcnt2 : Use.node p.1 ∈ alKeys sIn.useCounts := by
                    by_contra hnc
                    obtain ⟨hn0, _⟩ := (stkIn p.1).mp ⟨hmem, hnc⟩
                    rw [hldMod] at hn0
                    simp [alKeys] at hn0
                    exact hpr hn0
                  exact depOk_to_final ⟨[Use.node Node.root], hkeys⟩ hdefs hallcnt
                    (invIn.2.2.1 p hp hcnt2 u hu)
            · rw [if_neg hid] at h2
              simp at h2

/-- C1 (amended): planning a module-shaped root over a self-contained
module (interned definitions and module contents never switch modules)
yields a use table whose keys are pairwise distinct, an active version
registering each `Node` at most once, every registered `Node` counted,
and every registered definition's direct dependencies ordered: a
non-`Node` dependency (interned entity, label, value) sits strictly
before its user's entry, while a `Node` dependency is present as a key
but — for self- or mutually-recursive references — not necessarily
earlier. -/
theorem c1_amended (fuel : Nat) (cx : Context) (m : Module) (rid : Nat) (s : PlanState)
    (hcx : ctxClean cx) (hm : moduleClean m)
    (h : planForRoot fuel cx (NodeDef.mk rid [VisitStep.moduleVisit m] none) = .ok s) :
    (alKeys s.useCounts).Nodup ∧ (alKeys (lastDefs s)).Nodup ∧
      (∀ n ∈ alKeys (lastDefs s), Use.node n ∈ alKeys s.useCounts) ∧
      ∀ p ∈ lastDefs s, ∀ u ∈ stepsUses cx (some m) p.2.steps,
        depOkFinal s u (Use.node p.1) := by
  unfold planForRoot at h
  exact c1_root_aux fuel cx m rid "" _ s hcx hm rfl rfl h

/-- C1 counterexample: the claimed strict defs-before-uses ordering fails
at the concrete self-recursive module — `Func 0`'s definition uses
`Func 0` itself, and no key can sit strictly before its own entry. -/
theorem c1_counterexample : ¬ planOrderClaim exCx exModule exRecState := by
  intro h
  have hv : ({ name := "", nodeDefs := [(Node.root, exRoot), (Node.func 0, exFuncDef)] }
      : PlanVersion) ∈ exRecState.versions := List.mem_singleton.mpr rfl
  have hp : ((Node.func 0, exFuncDef) : Node × NodeDef)
      ∈ ({ name := "", nodeDefs := [(Node.root, exRoot), (Node.func 0, exFuncDef)] }
          : PlanVersion).nodeDefs :=
    List.Mem.tail _ (List.Mem.head _)
  have hu : Use.node (Node.func 0) ∈ stepsUses exCx (some exModule) exFuncDef.steps := by
    exact List.Mem.head _
  have hb := h _ hv _ hp _ hu
  exact absurd hb (by decide)

/-- C1 witness: the amended ordering facts hold at the completed plan of
the concrete self-recursive module (clean context and module, planning
succeeds at fuel 100). -/
theorem c1_witness :
    (alKeys exRecState.useCounts).Nodup ∧ (alKeys (lastDefs exRecState)).Nodup ∧
      (∀ n ∈ alKeys (lastDefs exRecState), Use.node n ∈ alKeys exRecState.useCounts) ∧
      ∀ p ∈ lastDefs exRecState, ∀ u ∈ stepsUses exCx (some exModule) p.2.steps,
        depOkFinal exRecState u (Use.node p.1) :=
  c1_amended 100 exCx exModule 1 exRecState
    (fun _ => ⟨rfl, rfl, rfl⟩)
    ⟨rfl,
      fun p hp => absurd hp (by simp [exModule, Module.globalVars]),
      fun p hp => by
        have hp2 : p = ((0 : Nat), exFuncDef) := List.mem_singleton.mp hp
        subst hp2
        rfl⟩
    rfl

end SpirtPrint
